import Mathlib

set_option maxRecDepth 16384

/-!
Verification development for the russ-fm folder-naming tools.

The Python sources are embedded shallowly: strings become `List Char`,
`str.replace` becomes `replaceSub`, the regex steps of
`sanitize_folder_name` become the dedicated recursive functions below, and
`difflib.SequenceMatcher.ratio` is modelled as an exact rational.
-/

namespace RussFM

/-- Strings of the Python program are modelled as lists of characters. -/
abbrev Str := List Char

/-- The ASCII apostrophe (written by code point to keep literals simple). -/
def apos : Char := Char.ofNat 39

/-- The ASCII double quote. -/
def dquote : Char := Char.ofNat 34

/-- Modelled from CPython: `str.isspace` / the regex class `\s` on `str`.
Covers the whole Unicode whitespace set used by CPython. -/
def pyIsSpace (c : Char) : Bool :=
  let v := c.toNat
  decide (v = 32 ∨ (9 ≤ v ∧ v ≤ 13) ∨ (28 ≤ v ∧ v ≤ 31) ∨ v = 0x85 ∨
    v = 0xA0 ∨ v = 0x1680 ∨ (0x2000 ≤ v ∧ v ≤ 0x200A) ∨ v = 0x2028 ∨
    v = 0x2029 ∨ v = 0x202F ∨ v = 0x205F ∨ v = 0x3000)

/-- Modelled from CPython: `str.isalnum`, restricted to the Unicode blocks
this code base manipulates (ASCII, Latin-1, Greek, Cyrillic, superscripts
and vulgar fractions); every other code point is treated as
non-alphanumeric. -/
def pyIsAlnum (c : Char) : Bool :=
  let v := c.toNat
  decide ((48 ≤ v ∧ v ≤ 57) ∨ (65 ≤ v ∧ v ≤ 90) ∨ (97 ≤ v ∧ v ≤ 122) ∨
    v = 0xB2 ∨ v = 0xB3 ∨ v = 0xB9 ∨ (0xBC ≤ v ∧ v ≤ 0xBE) ∨
    (0xC0 ≤ v ∧ v ≤ 0xFF ∧ v ≠ 0xD7 ∧ v ≠ 0xF7) ∨
    (0x386 ≤ v ∧ v ≤ 0x3CE ∧ v ≠ 0x387 ∧ v ≠ 0x38B ∧ v ≠ 0x38D ∧ v ≠ 0x3A2) ∨
    (0x400 ≤ v ∧ v ≤ 0x481) ∨ (0x48A ≤ v ∧ v ≤ 0x4FF) ∨
    (0x2150 ≤ v ∧ v ≤ 0x215E))

/-- `c.isascii()` of CPython. -/
def pyIsAscii (c : Char) : Bool := decide (c.toNat < 128)

/-- Case table of CPython `str.lower` beyond ASCII, for the code points
this code base manipulates: Latin-1, Greek (with the accented capitals)
and Cyrillic.  All other non-ASCII code points are left unchanged by
`pyLowerChar`. -/
def lowerPairs : List (Char × Char) :=
  (((List.range 31).map fun i =>
      (Char.ofNat (0xC0 + i), Char.ofNat (0xE0 + i))).filter
    fun p => p.1.toNat ≠ 0xD7) ++
  (((List.range 25).map fun i =>
      (Char.ofNat (0x391 + i), Char.ofNat (0x3B1 + i))).filter
    fun p => p.1.toNat ≠ 0x3A2) ++
  ((List.range 32).map fun i => (Char.ofNat (0x410 + i), Char.ofNat (0x430 + i))) ++
  ((List.range 16).map fun i => (Char.ofNat (0x400 + i), Char.ofNat (0x450 + i))) ++
  [('Ά', 'ά'), ('Έ', 'έ'), ('Ή', 'ή'), ('Ί', 'ί'), ('Ό', 'ό'), ('Ύ', 'ύ'),
   ('Ώ', 'ώ'), ('Ϊ', 'ϊ'), ('Ϋ', 'ϋ')]

/-- One character of CPython `str.lower`: ASCII capitals shift by 32,
other code points go through the table. -/
def pyLowerChar (c : Char) : Char :=
  if 65 ≤ c.toNat ∧ c.toNat ≤ 90 then Char.ofNat (c.toNat + 32)
  else (lowerPairs.lookup c).getD c

/-- CPython `str.lower` (character-wise on the modelled code points). -/
def pyLower (s : Str) : Str := s.map pyLowerChar

/-- CPython `str.strip`-style trimming with an arbitrary character test. -/
def pyStrip (p : Char → Bool) (s : Str) : Str :=
  ((s.dropWhile p).reverse.dropWhile p).reverse

/-- CPython `str.replace` for a one-character pattern: every occurrence
of `k` becomes `repl`. -/
def replaceChar (k : Char) (repl : Str) : Str → Str
  | [] => []
  | c :: rest =>
    if c = k then repl ++ replaceChar k repl rest
    else c :: replaceChar k repl rest

/-- CPython `str.replace` for a two-character pattern, non-overlapping
and scanned left to right. -/
def replacePair (k1 k2 : Char) (repl : Str) : Str → Str
  | [] => []
  | [c] => [c]
  | c :: d :: rest =>
    if c = k1 ∧ d = k2 then repl ++ replacePair k1 k2 repl rest
    else c :: replacePair k1 k2 repl (d :: rest)

/-- CPython `str.replace pat repl`.  The sources only ever replace one-
and two-character patterns, and the model covers exactly those; any
other pattern shape never occurs in the sources and is mapped to the
identity. -/
def replaceSub (pat repl : Str) : Str → Str :=
  match pat with
  | [k] => replaceChar k repl
  | [k1, k2] => replacePair k1 k2 repl
  | _ => id

/-- Applies a list of `(pattern, replacement)` pairs in order, as the
Python loops over the (insertion-ordered) dict items do. -/
def foldReplace (pairs : List (Str × Str)) (s : Str) : Str :=
  pairs.foldl (fun acc p => replaceSub p.1 p.2 acc) s

mutual

/-- The regex step `re.sub(r'\s+', '-', s)`: every maximal run of
whitespace becomes one dash.  `subSpaces` scans outside a run and
`skipWs` consumes the rest of a run whose dash is already emitted. -/
def subSpaces : Str → Str
  | [] => []
  | c :: rest =>
    if pyIsSpace c then '-' :: skipWs rest else c :: subSpaces rest

def skipWs : Str → Str
  | [] => []
  | c :: rest => if pyIsSpace c then skipWs rest else c :: subSpaces rest

end

/-- An ASCII lowercase letter, the regex class `[a-z]`. -/
def isAZ (c : Char) : Bool := decide ('a' ≤ c ∧ c ≤ 'z')

/-- The regex step `re.sub(r'([a-z])_([a-z])(?![a-z])', r'\1\2', s)`:
scanning left to right, an underscore between two lowercase letters whose
second letter is not followed by another lowercase letter is deleted, and
scanning resumes after the consumed match.  Lists shorter than the
pattern can hold no match and are returned whole. -/
def subUnderscore : Str → Str
  | [] => []
  | [c] => [c]
  | [c, d] => [c, d]
  | c1 :: d :: c2 :: rest =>
    if d = '_' ∧ isAZ c1 ∧ isAZ c2 ∧ ¬ isAZ (rest.headD ' ') then
      c1 :: c2 :: subUnderscore rest
    else
      c1 :: subUnderscore (d :: c2 :: rest)

/-- The `accent_map` dict of `sanitize_folder_name`, in source order. -/
def accentPairs : List (Str × Str) :=
  [(['á'], ['a']), (['à'], ['a']), (['ä'], ['a']), (['â'], ['a']),
   (['ã'], ['a']), (['å'], ['a']),
   (['é'], ['e']), (['è'], ['e']), (['ë'], ['e']), (['ê'], ['e']),
   (['í'], ['i']), (['ì'], ['i']), (['ï'], ['i']), (['î'], ['i']),
   (['ó'], ['o']), (['ò'], ['o']), (['ö'], ['o']), (['ô'], ['o']),
   (['õ'], ['o']), (['ø'], ['o']),
   (['ú'], ['u']), (['ù'], ['u']), (['ü'], ['u']), (['û'], ['u']),
   (['ý'], ['y']), (['ÿ'], ['y']),
   (['ñ'], ['n']), (['ç'], ['c']),
   (['ß'], ['s', 's']), (['æ'], ['a', 'e']), (['œ'], ['o', 'e']),
   (['ð'], ['d']), (['þ'], ['t', 'h'])]

/-- The `symbol_map` dict with the replacement the code actually performs:
fraction words get a leading dash, digit and dash replacements are used
verbatim (the membership test on the word list in the source is constant
per entry and is evaluated here). -/
def symbolPairs : List (Str × Str) :=
  [(['½'], '-' :: ('h' :: "alf".toList)), (['⅓'], '-' :: "third".toList),
   (['¼'], '-' :: "quarter".toList), (['¾'], '-' :: "three-quarters".toList),
   (['⅛'], '-' :: "eighth".toList), (['⅜'], '-' :: "three-eighths".toList),
   (['⅝'], '-' :: "five-eighths".toList), (['⅞'], '-' :: "seven-eighths".toList),
   (['²'], ['2']), (['³'], ['3']), (['¹'], ['1']),
   (['–'], ['-']), (['—'], ['-']), (['−'], ['-'])]

/-- The `remove_chars` list as Python tokenizes the source line: the
mangled quote characters produce the two-character entry `", "` and two
plain double-quote entries; every entry is replaced by the empty string. -/
def removePairs : List (Str × Str) :=
  [(['°'], []), (['©'], []), (['®'], []), (['™'], []),
   ([',', ' '], []), ([dquote], []), ([dquote], []),
   (['«'], []), (['»'], []), (['‹'], []), (['›'], []), (['„'], []), (['‚'], []),
   (['('], []), ([')'], []), (['+'], []), (['='], []), (['%'], []),
   (['@'], []), (['#'], []), (['$'], []), (['€'], []), (['£'], []), (['…'], [])]

/-- The `greek_map` dict of `sanitize_folder_name`, in source order. -/
def greekPairs : List (Str × Str) :=
  [(['Α'], ['a']), (['α'], ['a']), (['ά'], ['a']), (['Ά'], ['a']),
   (['Β'], ['b']), (['β'], ['b']),
   (['Γ'], ['g']), (['γ'], ['g']),
   (['Δ'], ['d']), (['δ'], ['d']),
   (['Ε'], ['e']), (['ε'], ['e']), (['έ'], ['e']), (['Έ'], ['e']),
   (['Ζ'], ['z']), (['ζ'], ['z']),
   (['Η'], ['e']), (['η'], ['e']), (['ή'], ['e']), (['Ή'], ['e']),
   (['Θ'], ['t', 'h']), (['θ'], ['t', 'h']),
   (['Ι'], ['i']), (['ι'], ['i']), (['ί'], ['i']), (['ϊ'], ['i']),
   (['ΐ'], ['i']), (['Ί'], ['i']), (['Ϊ'], ['i']),
   (['Κ'], ['k']), (['κ'], ['k']),
   (['Λ'], ['l']), (['λ'], ['l']),
   (['Μ'], ['m']), (['μ'], ['m']),
   (['Ν'], ['n']), (['ν'], ['n']),
   (['Ξ'], ['x']), (['ξ'], ['x']),
   (['Ο'], ['o']), (['ο'], ['o']), (['ό'], ['o']), (['Ό'], ['o']),
   (['Π'], ['p']), (['π'], ['p']),
   (['Ρ'], ['r']), (['ρ'], ['r']),
   (['Σ'], ['s']), (['σ'], ['s']), (['ς'], ['s']),
   (['Τ'], ['t']), (['τ'], ['t']),
   (['Υ'], ['u']), (['υ'], ['u']), (['ύ'], ['u']), (['ϋ'], ['u']),
   (['ΰ'], ['u']), (['Ύ'], ['u']), (['Ϋ'], ['u']),
   (['Φ'], ['f']), (['φ'], ['f']),
   (['Χ'], ['c', 'h']), (['χ'], ['c', 'h']),
   (['Ψ'], ['p', 's']), (['ψ'], ['p', 's']),
   (['Ω'], ['o']), (['ω'], ['o']), (['ώ'], ['o']), (['Ώ'], ['o'])]

/-- One pass of `s.replace("--", "-")`: non-overlapping left-to-right. -/
def replaceDD : Str → Str
  | [] => []
  | [c] => [c]
  | c :: d :: rest =>
    if c = '-' ∧ d = '-' then '-' :: replaceDD rest
    else c :: replaceDD (d :: rest)

/-- The test `"--" in s`. -/
def hasDD : Str → Bool
  | [] => false
  | [_] => false
  | c :: d :: rest => (c = '-' && d = '-') || hasDD (d :: rest)

/-- The `while "--" in sanitized` loop, run with enough fuel: each
iteration strictly shortens the string, so `s.length` iterations always
reach the fixed point. -/
def collapseGo : Nat → Str → Str
  | 0, s => s
  | n + 1, s => if hasDD s then collapseGo n (replaceDD s) else s

/-- Collapses every run of dashes to a single dash (the while loop). -/
def collapseDashes (s : Str) : Str := collapseGo s.length s

/-- Every character any replacement step of the sanitizer can introduce:
the dash written for whitespace, underscores and dash-like symbols, and
the characters of the table replacement strings. -/
def sanitizePool : Str :=
  '-' :: (accentPairs ++ symbolPairs ++ removePairs ++ greekPairs).flatMap
    Prod.snd

/-- The empty-bracket literals of `sanitize_folder_name` (braces written by
code point). -/
def emptyBracketLiterals : List Str :=
  [['(', ' ', ')'], ['(', ')'], ['[', ' ', ']'], ['[', ']'],
   [Char.ofNat 0x7b, ' ', Char.ofNat 0x7d], [Char.ofNat 0x7b, Char.ofNat 0x7d]]

/-- The fallback value. -/
def unknownStr : Str := ['u', 'n', 'k', 'n', 'o', 'w', 'n']

/-- The text transformations of `sanitize_folder_name` before the final
alphanumeric filter: lowercase, whitespace and underscore handling,
bracket and punctuation deletion, and the four substitution tables. -/
def sanitizePrefilter (name : Str) : Str :=
  let s := pyLower name
  let s := subSpaces s
  let s := subUnderscore s
  let s := replaceChar '_' ['-'] s
  let s := replaceChar '[' [] s
  let s := replaceChar ']' [] s
  let s := replaceChar (Char.ofNat 0x7b) [] s
  let s := replaceChar (Char.ofNat 0x7d) [] s
  let s := replaceChar '&' [] s
  let s := replaceChar apos [] s
  let s := replaceChar dquote [] s
  let s := replaceChar '.' [] s
  let s := replaceChar '!' [] s
  let s := replaceChar '?' [] s
  let s := replaceChar ';' [] s
  let s := replaceChar ':' [] s
  let s := foldReplace accentPairs s
  let s := foldReplace symbolPairs s
  let s := foldReplace removePairs s
  foldReplace greekPairs s

/-- The final character filter of `sanitize_folder_name`. -/
def sanitizeFiltered (name : Str) : Str :=
  (sanitizePrefilter name).filter fun c => pyIsAlnum c || c = '-'

/-- The main pipeline of `sanitize_folder_name` after the early returns:
filter, dash collapsing, dash trimming. -/
def sanitizeCore (name : Str) : Str :=
  pyStrip (fun c => c = '-') (collapseDashes (sanitizeFiltered name))

/-- `sanitize_folder_name` of
`music_collection_manager/utils/folder_sanitizer.py`. -/
def sanitize_folder_name (name : Str) : Str :=
  if name = [] ∨ pyStrip pyIsSpace name = [] then unknownStr
  else if pyStrip pyIsSpace name ∈ emptyBracketLiterals then unknownStr
  else
    let s := sanitizeCore name
    if s = [] then unknownStr else s

/-! ## The reconciler (`tools/artist_folder_reconciler.py`) -/

/-- `ArtistFolderReconciler.slugify`: lowercase, plain spaces to dashes,
the accent table, the alphanumeric-or-dash filter, dash collapsing and
dash trimming.  There is no `"unknown"` fallback here. -/
def slugify (text : Str) : Str :=
  let s := replaceChar ' ' ['-'] (pyLower text)
  let s := foldReplace accentPairs s
  let s := s.filter fun c => pyIsAlnum c || c = '-'
  let s := collapseDashes s
  pyStrip (fun c => c = '-') s

/-- Substring test, CPython `needle in hay`. -/
def containsSub (hay needle : Str) : Bool :=
  hay.tails.any fun t => needle.isPrefixOf t

/-- Match of the regex `\s+<w>.*$` (IGNORECASE) at the head of the given
suffix: a whitespace run followed by the literal word `w`; `$` is
modelled as the end of the input. -/
def matchWordTail (w : Str) : Str → Bool
  | [] => false
  | c :: rest => pyIsSpace c && w.isPrefixOf (pyLower (rest.dropWhile pyIsSpace))

/-- `re.sub(r'\s+<w>.*$', '', text, flags=re.IGNORECASE)`: drops the
suffix from the leftmost match on. -/
def subWordTail (w : Str) : Str → Str
  | [] => []
  | c :: rest =>
    if matchWordTail w (c :: rest) then [] else c :: subWordTail w rest

/-- Match of the regex `\s+\(.*\)$` at the head of the given suffix:
a whitespace run, an opening parenthesis, anything without a newline,
and a closing parenthesis ending the input. -/
def matchParenTail : Str → Bool
  | [] => false
  | c :: rest =>
    pyIsSpace c &&
      (match rest.dropWhile pyIsSpace with
       | '(' :: tail =>
         tail.getLast? = some ')' && '\n' ∉ tail.dropLast
       | _ => false)

/-- `re.sub(r'\s+\(.*\)$', '', text)`. -/
def subParenTail : Str → Str
  | [] => []
  | c :: rest =>
    if matchParenTail (c :: rest) then [] else c :: subParenTail rest

/-- The four trailing-pattern cleanups of `alternative_slugify`, in source
order, as functions from the text to the cleaned text. -/
def tailCleanups : List (Str → Str) :=
  [subParenTail,
   subWordTail ("featuring".toList),
   subWordTail ('f' :: 'e' :: 'a' :: 't' :: ['.']),
   subWordTail ('f' :: 't' :: ['.'])]

/-- `ArtistFolderReconciler.alternative_slugify`.  The final
`list(set(alternatives))` has unspecified order in Python; it is modelled
as first-occurrence deduplication, and no claim below depends on the
order. -/
def alternative_slugify (text : Str) : List Str :=
  let alts := [slugify text]
  let alts :=
    if ("the ".toList).isPrefixOf (pyLower text) then
      alts ++ [slugify (text.drop 4)]
    else alts
  let alts :=
    if '&' ∈ pyLower text then
      alts ++ [slugify (replaceChar '&' ("and".toList) (pyLower text))]
    else alts
  let alts := alts ++ tailCleanups.filterMap fun clean =>
    if clean text ≠ text then some (slugify (clean text)) else none
  alts.eraseDups

/-! ### `difflib.SequenceMatcher` (CPython), modelled exactly for
`isjunk=None`: the b-side index with the autojunk heuristic, the
dynamic-programming longest-match search with its strictly-greater
tie-break, the two non-junk extension loops (the junk extension loops
never run because `bjunk` is empty), the queue recursion of
`get_matching_blocks`, and `ratio` as an exact rational. -/

/-- A matching block `(i, j, size)`. -/
structure Best where
  bi : Nat
  bj : Nat
  bsize : Nat
deriving DecidableEq, Repr

/-- Ascending positions of a character in `b` (the `b2j` lists). -/
def positionsOf (b : Str) (c : Char) : List Nat :=
  (List.range b.length).filter fun j => b.getD j ' ' = c

/-- The autojunk heuristic: for `len(b) >= 200`, characters occurring in
more than one percent (plus one) of `b` are dropped from the index. -/
def isPopular (b : Str) (c : Char) : Bool :=
  200 ≤ b.length && (positionsOf b c).length > b.length / 100 + 1

/-- The `b2j` index after autojunk deletion. -/
def b2jIdx (b : Str) (c : Char) : List Nat :=
  if isPopular b c then [] else positionsOf b c

/-- Specification predicate: a block lies inside the search window. -/
def BestOk (best : Best) (alo ahi blo bhi : Nat) : Prop :=
  alo ≤ best.bi ∧ best.bi + best.bsize ≤ ahi ∧
    blo ≤ best.bj ∧ best.bj + best.bsize ≤ bhi

/-- Specification function for the equal-string analysis: the length of
the maximal run of non-popular positions ending at an index. -/
def diagChain (s : Str) : Nat → Nat
  | 0 => if isPopular s (s.getD 0 ' ') then 0 else 1
  | j + 1 => if isPopular s (s.getD (j + 1) ' ') then 0 else diagChain s j + 1

/-- The inner loop of `find_longest_match` over the positions of `a[i]`
in `b`: builds the new `j2len` map (as a total function, zero by default)
and updates the best block on a strictly greater run length.  An index at
or past `bhi` stops the loop (the `break`), one below `blo` is skipped
(the `continue`). -/
def innerLoop (old : Nat → Nat) (blo bhi i : Nat) :
    List Nat → (Nat → Nat) → Best → ((Nat → Nat) × Best)
  | [], nj, best => (nj, best)
  | j :: js, nj, best =>
    if j < blo then innerLoop old blo bhi i js nj best
    else if bhi ≤ j then (nj, best)
    else
      let k := (if j = 0 then 0 else old (j - 1)) + 1
      innerLoop old blo bhi i js (fun x => if x = j then k else nj x)
        (if best.bsize < k then ⟨i + 1 - k, j + 1 - k, k⟩ else best)

/-- The outer loop of `find_longest_match` over rows `alo ≤ i < ahi`
(`fuel` counts the remaining rows). -/
def dpRows (a : Str) (bj : Char → List Nat) (blo bhi : Nat) :
    Nat → Nat → (Nat → Nat) → Best → Best
  | 0, _, _, best => best
  | fuel + 1, i, old, best =>
    let p := innerLoop old blo bhi i (bj (a.getD i ' ')) (fun _ => 0) best
    dpRows a bj blo bhi fuel (i + 1) p.1 p.2

/-- The backward extension loop (`bjunk` is empty, so every equal
adjacent pair extends). -/
def extendBack (a b : Str) (alo blo : Nat) : Nat → Best → Best
  | 0, best => best
  | fuel + 1, best =>
    if alo < best.bi ∧ blo < best.bj ∧
        a.getD (best.bi - 1) ' ' = b.getD (best.bj - 1) ' ' then
      extendBack a b alo blo fuel ⟨best.bi - 1, best.bj - 1, best.bsize + 1⟩
    else best

/-- The forward extension loop. -/
def extendFwd (a b : Str) (ahi bhi : Nat) : Nat → Best → Best
  | 0, best => best
  | fuel + 1, best =>
    if best.bi + best.bsize < ahi ∧ best.bj + best.bsize < bhi ∧
        a.getD (best.bi + best.bsize) ' ' = b.getD (best.bj + best.bsize) ' ' then
      extendFwd a b ahi bhi fuel ⟨best.bi, best.bj, best.bsize + 1⟩
    else best

/-- `SequenceMatcher.find_longest_match` on the range
`[alo, ahi) × [blo, bhi)`.  The two junk extension loops of the source
never run (with `isjunk=None` the `bjunk` set is empty) and are omitted. -/
def find_longest_match (a b : Str) (bj : Char → List Nat)
    (alo ahi blo bhi : Nat) : Best :=
  let d := dpRows a bj blo bhi (ahi - alo) alo (fun _ => 0) ⟨alo, blo, 0⟩
  let d := extendBack a b alo blo d.bi d
  extendFwd a b ahi bhi (ahi - (d.bi + d.bsize)) d

/-- Total size of the matching blocks found by the recursive block
collection of `get_matching_blocks` (the later sort-and-merge step
preserves the total size, which is all `ratio` consumes).  `fuel` bounds
the recursion depth; any `fuel` exceeding `ahi - alo` is enough. -/
def matchTotal (a b : Str) (bj : Char → List Nat) :
    Nat → Nat → Nat → Nat → Nat → Nat
  | 0, _, _, _, _ => 0
  | fuel + 1, alo, ahi, blo, bhi =>
    let m := find_longest_match a b bj alo ahi blo bhi
    if m.bsize = 0 then 0
    else
      m.bsize +
        (if alo < m.bi ∧ blo < m.bj then
          matchTotal a b bj fuel alo m.bi blo m.bj else 0) +
        (if m.bi + m.bsize < ahi ∧ m.bj + m.bsize < bhi then
          matchTotal a b bj fuel (m.bi + m.bsize) ahi (m.bj + m.bsize) bhi
        else 0)

/-- `SequenceMatcher(None, a, b).ratio()` as an exact rational:
`2 * M / T`, and `1.0` when both strings are empty. -/
def ratioScore (a b : Str) : ℚ :=
  if a.length + b.length = 0 then 1
  else 2 * (matchTotal a b (b2jIdx b) (a.length + 1) 0 a.length 0 b.length : ℚ) /
    (a.length + b.length)

/-- `ArtistFolderReconciler.similarity_score`: the ratio of the
lowercased strings. -/
def similarity_score (x y : Str) : ℚ := ratioScore (pyLower x) (pyLower y)

/-! ### `ArtistFolderReconciler.find_potential_matches` -/

/-- A database artist record (`id`, `name`); its slug set is computed
from the name exactly as `get_database_artists` does. -/
structure Artist where
  aid : Nat
  aname : Str
deriving DecidableEq, Repr

/-- The `alternative_slugs` field of a database artist row. -/
def artistSlugs (a : Artist) : List Str := alternative_slugify a.aname

/-- Ids of artists one of whose slugs equals a public folder (the first
loop of `find_potential_matches`; the `break` makes it an `any`). -/
def matchedIds (artists : List Artist) (folders : List Str) : List Nat :=
  (artists.filter fun a => (artistSlugs a).any (· ∈ folders)).map (·.aid)

/-- The residual unmatched artists. -/
def unmatchedArtists (artists : List Artist) (folders : List Str) : List Artist :=
  artists.filter fun a => a.aid ∉ matchedIds artists folders

/-- Folders consumed by matched artists: for each matched artist, the
first of its slugs that is a public folder. -/
def matchedFolders (artists : List Artist) (folders : List Str) : List Str :=
  (artists.filter fun a => a.aid ∈ matchedIds artists folders).filterMap
    fun a => (artistSlugs a).find? (· ∈ folders)

/-- `public_folders - matched_folders`.  Python iterates sets in
unspecified order; folders are carried as a list and iterated in list
order, and no claim below depends on that order. -/
def orphanedFolders (artists : List Artist) (folders : List Str) : List Str :=
  folders.filter (· ∉ matchedFolders artists folders)

/-- The candidate list gathered for one orphaned folder: the name
similarity and every slug similarity meeting the threshold, in loop
order. -/
def folderCandidates (unmatched : List Artist) (folder : Str) (threshold : ℚ) :
    List (Str × ℚ) :=
  unmatched.flatMap fun a =>
    (if threshold ≤ similarity_score folder a.aname then
      [(a.aname, similarity_score folder a.aname)] else []) ++
    ((artistSlugs a).filterMap fun slug =>
      if threshold ≤ similarity_score folder slug then
        some (a.aname, similarity_score folder slug)
      else none)

/-- The per-name maximum, keeping dict insertion order (the
`unique_matches` dict loop). -/
def upsertMax : List (Str × ℚ) → (Str × ℚ) → List (Str × ℚ)
  | [], p => [p]
  | q :: rest, p =>
    if q.1 = p.1 then (if q.2 < p.2 then (q.1, p.2) :: rest else q :: rest)
    else q :: upsertMax rest p

/-- `unique_matches` built over the candidate list. -/
def uniqueMax (l : List (Str × ℚ)) : List (Str × ℚ) := l.foldl upsertMax []

/-- Stable insertion keeping descending scores (a new element goes after
existing elements of equal score, as Python's stable `sorted` with
`reverse=True` does). -/
def insertDesc : List (Str × ℚ) → (Str × ℚ) → List (Str × ℚ)
  | [], p => [p]
  | q :: rest, p =>
    if q.2 < p.2 then p :: q :: rest else q :: insertDesc rest p

/-- `sorted(unique_matches.items(), key=score, reverse=True)`. -/
def sortDesc (l : List (Str × ℚ)) : List (Str × ℚ) := l.foldl insertDesc []

/-- `ArtistFolderReconciler.find_potential_matches`, with the database
read replaced by the artist list and the folder listing by the folder
list. -/
def find_potential_matches (artists : List Artist) (folders : List Str)
    (threshold : ℚ) : List (Str × List (Str × ℚ)) :=
  let unmatched := unmatchedArtists artists folders
  (orphanedFolders artists folders).filterMap fun folder =>
    let ms := folderCandidates unmatched folder threshold
    if ms = [] then none else some (folder, sortDesc (uniqueMax ms))

/-! ## The migrator (`tools/regenerate_all_with_migration.py`) -/

/-- `FolderMigrator.analyze_folder`; the filesystem is the list of folder
names under the base path. -/
def analyze_folder (fs : List Str) (current expected : Str) : Str :=
  if current = expected then "correct".toList
  else if current ∉ fs then "missing".toList
  else if expected ∈ fs then "conflict".toList
  else "needs_migration".toList

/-- `FolderMigrator.migrate_folder` on its success path: a dry run only
reports, otherwise `shutil.move` renames the folder.  An I/O failure
(caught and logged in the source) is not modelled. -/
def migrate_folder (dryRun : Bool) (fs : List Str) (oldName newName : Str) :
    List Str × Bool :=
  if dryRun then (fs, true)
  else (fs.erase oldName ++ [newName], true)

/-- One entity of the main migration loop: analyze, then migrate exactly
when the status is `needs_migration`. -/
def migrationStep (dryRun : Bool) (fs : List Str) (existing expected : Str) :
    List Str × Str :=
  let status := analyze_folder fs existing expected
  if status = "needs_migration".toList then
    ((migrate_folder dryRun fs existing expected).1, status)
  else (fs, status)

/-! ## The checker (`tools/check_sanitization_changes.py`) -/

/-- One row of `check_entity`'s result dict. -/
structure CheckResult where
  rname : Str
  rid : Str
  expectedFolder : Str
  currentFolder : Str
  status : Str
deriving DecidableEq, Repr

/-- The four accumulator lists of `SanitizationChecker`. -/
structure CheckerState where
  changes_needed : List CheckResult
  conflicts : List CheckResult
  already_correct : List CheckResult
  missing_folders : List CheckResult
deriving Repr

/-- Python truthiness of the optional entity id: `None` and the empty
string both select the no-id branches. -/
def optId : Option Str → Option Str
  | some i => if i = [] then none else some i
  | none => none

/-- The expected folder name: the sanitized name, with `-<id>` appended
for releases. -/
def expectedName (name : Str) (entityId : Option Str) : Str :=
  match optId entityId with
  | some i => sanitize_folder_name name ++ '-' :: i
  | none => sanitize_folder_name name

/-- `SanitizationChecker.find_existing_folder`; the base path's directory
listing is the list `base`, every entry of which is a directory. -/
def find_existing_folder (base : List Str) (name : Str) (entityId : Option Str) :
    Option Str :=
  let test := expectedName name entityId
  if test ∈ base then some test
  else
    let variations := [replaceChar ' ' ['-'] (pyLower name),
                       replaceChar ' ' ['_'] (pyLower name),
                       (replaceChar ' ' ['-'] (pyLower name)).filter pyIsAscii]
    match optId entityId with
    | some i =>
      match variations.find? (fun v => v ++ '-' :: i ∈ base) with
      | some v => some (v ++ '-' :: i)
      | none => base.find? fun folder => containsSub folder i
    | none =>
      match variations.find? (· ∈ base) with
      | some v => some v
      | none =>
        let nameStart :=
          if 5 < name.length then pyLower (name.take 5) else pyLower name
        base.find? fun folder => nameStart.isPrefixOf (pyLower folder)

/-- `SanitizationChecker.check_entity`: computes the result record and
appends it to the matching accumulator list. -/
def check_entity (base : List Str) (st : CheckerState) (name : Str)
    (entityId : Option Str) : CheckerState × CheckResult :=
  let expd := expectedName name entityId
  let existing := find_existing_folder base name entityId
  let r0 : CheckResult :=
    ⟨name, (optId entityId).getD [], expd, existing.getD ("NOT FOUND".toList),
      "unknown".toList⟩
  match existing with
  | none =>
    let r := { r0 with status := "missing".toList }
    ({ st with missing_folders := st.missing_folders ++ [r] }, r)
  | some ex =>
    if ex = expd then
      let r := { r0 with status := "correct".toList }
      ({ st with already_correct := st.already_correct ++ [r] }, r)
    else if expd ∈ base then
      let r := { r0 with status := "conflict".toList }
      ({ st with conflicts := st.conflicts ++ [r] }, r)
    else
      let r := { r0 with status := "needs_change".toList }
      ({ st with changes_needed := st.changes_needed ++ [r] }, r)

/-- A whole checking run over a list of `(name, id)` entities, from the
fresh checker state. -/
def processEntities (base : List Str) (entities : List (Str × Option Str)) :
    CheckerState :=
  entities.foldl (fun st e => (check_entity base st e.1 e.2).1) ⟨[], [], [], []⟩

/-! ## Supporting lemmas about the string pipeline -/

theorem mem_replaceChar {k : Char} {repl : Str} {c : Char} :
    ∀ {s : Str}, c ∈ replaceChar k repl s → c ∈ s ∨ c ∈ repl := by
  intro s
  induction s with
  | nil => intro h; exact absurd h (by simp [replaceChar])
  | cons d rest ih =>
    intro hc
    rw [replaceChar] at hc
    by_cases h : d = k
    · rw [if_pos h] at hc
      rcases List.mem_append.mp hc with hc | hc
      · exact Or.inr hc
      · rcases ih hc with hc | hc
        · exact Or.inl (List.mem_cons_of_mem _ hc)
        · exact Or.inr hc
    · rw [if_neg h] at hc
      rcases List.mem_cons.mp hc with hc | hc
      · exact Or.inl (by simp [hc])
      · rcases ih hc with hc | hc
        · exact Or.inl (List.mem_cons_of_mem _ hc)
        · exact Or.inr hc

theorem replaceChar_eq_self {k : Char} {repl : Str} :
    ∀ {s : Str}, k ∉ s → replaceChar k repl s = s := by
  intro s
  induction s with
  | nil => intro _; rfl
  | cons d rest ih =>
    intro hk
    rw [replaceChar, if_neg (by rintro rfl; exact hk (by simp)),
      ih fun hm => hk (List.mem_cons_of_mem _ hm)]

theorem not_mem_replaceChar {k : Char} {repl : Str} (hk : k ∉ repl) :
    ∀ {s : Str}, k ∉ replaceChar k repl s := by
  intro s
  induction s with
  | nil => simp [replaceChar]
  | cons d rest ih =>
    rw [replaceChar]
    by_cases h : d = k
    · rw [if_pos h]
      intro hm
      rcases List.mem_append.mp hm with hm | hm
      · exact hk hm
      · exact ih hm
    · rw [if_neg h]
      intro hm
      rcases List.mem_cons.mp hm with hm | hm
      · exact h hm.symm
      · exact ih hm

theorem mem_replacePair {k1 k2 : Char} {repl : Str} {c : Char} :
    ∀ {s : Str}, c ∈ replacePair k1 k2 repl s → c ∈ s ∨ c ∈ repl := by
  intro s
  induction s using replacePair.induct k1 k2 repl with
  | case1 => intro h; exact absurd h (by simp [replacePair])
  | case2 d => intro h; exact Or.inl (by simpa [replacePair] using h)
  | case3 d e rest h ih =>
    rw [replacePair, if_pos h]
    intro hc
    rcases List.mem_append.mp hc with hc | hc
    · exact Or.inr hc
    · rcases ih hc with hc | hc
      · exact Or.inl (List.mem_cons_of_mem _ (List.mem_cons_of_mem _ hc))
      · exact Or.inr hc
  | case4 d e rest h ih =>
    rw [replacePair, if_neg h]
    intro hc
    rcases List.mem_cons.mp hc with hc | hc
    · exact Or.inl (by simp [hc])
    · rcases ih hc with hc | hc
      · exact Or.inl (List.mem_cons_of_mem _ hc)
      · exact Or.inr hc

theorem replacePair_eq_self {k1 k2 : Char} {repl : Str} {d : Char}
    (hd : d = k1 ∨ d = k2) :
    ∀ {s : Str}, d ∉ s → replacePair k1 k2 repl s = s := by
  intro s
  induction s using replacePair.induct k1 k2 repl with
  | case1 => intro _; rfl
  | case2 e => intro _; rw [replacePair]
  | case3 e f rest h ih =>
    intro hds
    rcases hd with hd | hd
    · exact absurd (by simp [hd, h.1]) hds
    · exact absurd (by simp [hd, h.2]) hds
  | case4 e f rest h ih =>
    intro hds
    rw [replacePair, if_neg h, ih fun hm => hds (List.mem_cons_of_mem _ hm)]

theorem mem_replaceSub {pat repl : Str} {c : Char} {s : Str}
    (h : c ∈ replaceSub pat repl s) : c ∈ s ∨ c ∈ repl := by
  rcases pat with _ | ⟨k, _ | ⟨k2, _ | ⟨k3, t⟩⟩⟩
  · exact Or.inl h
  · exact mem_replaceChar h
  · exact mem_replacePair h
  · exact Or.inl h

theorem replaceSub_eq_self {pat repl : Str} {d : Char} (hd : d ∈ pat)
    {s : Str} (hds : d ∉ s) : replaceSub pat repl s = s := by
  rcases pat with _ | ⟨k, _ | ⟨k2, _ | ⟨k3, t⟩⟩⟩
  · rfl
  · have : d = k := by simpa using hd
    subst this
    exact replaceChar_eq_self hds
  · have : d = k ∨ d = k2 := by simpa using hd
    exact replacePair_eq_self this hds
  · rfl

theorem mem_foldReplace {c : Char} :
    ∀ {ps : List (Str × Str)} {s : Str}, c ∈ foldReplace ps s →
      c ∈ s ∨ ∃ p ∈ ps, c ∈ p.2 := by
  intro ps
  induction ps with
  | nil => intro s h; exact Or.inl h
  | cons p rest ih =>
    intro s h
    rcases ih h with h | ⟨q, hq, hcq⟩
    · rcases mem_replaceSub h with h | h
      · exact Or.inl h
      · exact Or.inr ⟨p, by simp, h⟩
    · exact Or.inr ⟨q, List.mem_cons_of_mem _ hq, hcq⟩

theorem foldReplace_eq_self {ps : List (Str × Str)} {s : Str}
    (h : ∀ p ∈ ps, ∃ d ∈ p.1, d ∉ s) : foldReplace ps s = s := by
  induction ps with
  | nil => rfl
  | cons p rest ih =>
    rcases h p (by simp) with ⟨d, hd, hds⟩
    have h1 : replaceSub p.1 p.2 s = s := replaceSub_eq_self hd hds
    show foldReplace rest (replaceSub p.1 p.2 s) = s
    rw [h1]
    exact ih fun q hq => h q (List.mem_cons_of_mem _ hq)

theorem subSpaces_skipWs_mem (c : Char) :
    ∀ s : Str, (c ∈ subSpaces s → c ∈ s ∨ c = '-') ∧
      (c ∈ skipWs s → c ∈ s ∨ c = '-') := by
  intro s
  induction s with
  | nil =>
    constructor <;> (intro h; exact absurd h (by simp [subSpaces, skipWs]))
  | cons d rest ih =>
    constructor
    · intro h
      rw [subSpaces] at h
      by_cases hd : pyIsSpace d
      · rw [if_pos hd] at h
        rcases List.mem_cons.mp h with h | h
        · exact Or.inr h
        · rcases ih.2 h with h | h
          · exact Or.inl (List.mem_cons_of_mem _ h)
          · exact Or.inr h
      · rw [if_neg hd] at h
        rcases List.mem_cons.mp h with h | h
        · exact Or.inl (by simp [h])
        · rcases ih.1 h with h | h
          · exact Or.inl (List.mem_cons_of_mem _ h)
          · exact Or.inr h
    · intro h
      rw [skipWs] at h
      by_cases hd : pyIsSpace d
      · rw [if_pos hd] at h
        rcases ih.2 h with h | h
        · exact Or.inl (List.mem_cons_of_mem _ h)
        · exact Or.inr h
      · rw [if_neg hd] at h
        rcases List.mem_cons.mp h with h | h
        · exact Or.inl (by simp [h])
        · rcases ih.1 h with h | h
          · exact Or.inl (List.mem_cons_of_mem _ h)
          · exact Or.inr h

theorem mem_subSpaces {c : Char} {s : Str} (h : c ∈ subSpaces s) :
    c ∈ s ∨ c = '-' := (subSpaces_skipWs_mem c s).1 h

theorem subSpaces_eq_self :
    ∀ {s : Str}, (∀ c ∈ s, ¬ pyIsSpace c) → subSpaces s = s := by
  intro s
  induction s with
  | nil => intro _; rw [subSpaces]
  | cons d rest ih =>
    intro hs
    rw [subSpaces, if_neg (by simpa using hs d (by simp)),
      ih fun c hc => hs c (List.mem_cons_of_mem _ hc)]

theorem mem_subUnderscore {c : Char} :
    ∀ {s : Str}, c ∈ subUnderscore s → c ∈ s := by
  intro s
  induction s using subUnderscore.induct with
  | case1 => intro h; exact absurd h (by simp [subUnderscore])
  | case2 d => intro h; simpa [subUnderscore] using h
  | case3 d e => intro h; simpa [subUnderscore] using h
  | case4 c1 d c2 rest h ih =>
    rw [subUnderscore, if_pos h]
    intro hc
    rcases List.mem_cons.mp hc with hc | hc
    · simp [hc]
    · rcases List.mem_cons.mp hc with hc | hc
      · simp [hc]
      · simp [ih hc]
  | case5 c1 d c2 rest h ih =>
    rw [subUnderscore, if_neg h]
    intro hc
    rcases List.mem_cons.mp hc with hc | hc
    · simp [hc]
    · simpa using List.mem_cons_of_mem c1 (ih hc)

theorem subUnderscore_eq_self :
    ∀ {s : Str}, '_' ∉ s → subUnderscore s = s := by
  intro s
  induction s using subUnderscore.induct with
  | case1 => intro _; rw [subUnderscore]
  | case2 d => intro _; rw [subUnderscore]
  | case3 d e => intro _; rw [subUnderscore]
  | case4 c1 d c2 rest h ih =>
    intro hs
    exact absurd (by simp [h.1]) hs
  | case5 c1 d c2 rest h ih =>
    intro hs
    rw [subUnderscore, if_neg h, ih fun hm => hs (List.mem_cons_of_mem _ hm)]

theorem toNat_ofNat_of_lt {n : Nat} (h : n < 55296) : (Char.ofNat n).toNat = n := by
  simp [Char.ofNat, Char.toNat, Nat.isValidChar, h, Char.ofNatAux, UInt32.toNat]

theorem mem_replaceDD {c : Char} : ∀ {s : Str}, c ∈ replaceDD s → c ∈ s := by
  intro s
  induction s using replaceDD.induct with
  | case1 => intro h; exact absurd h (by simp [replaceDD])
  | case2 d => intro h; simpa [replaceDD] using h
  | case3 d e rest h ih =>
    rw [replaceDD, if_pos h]
    intro hc
    rcases List.mem_cons.mp hc with hc | hc
    · simp [hc, h.1]
    · simp [ih hc]
  | case4 d e rest h ih =>
    rw [replaceDD, if_neg h]
    intro hc
    rcases List.mem_cons.mp hc with hc | hc
    · simp [hc]
    · simpa using List.mem_cons_of_mem d (ih hc)

theorem length_replaceDD_le : ∀ {s : Str}, (replaceDD s).length ≤ s.length := by
  intro s
  induction s using replaceDD.induct with
  | case1 => simp [replaceDD]
  | case2 d => simp [replaceDD]
  | case3 d e rest h ih =>
    rw [replaceDD, if_pos h]
    simp only [List.length_cons]
    omega
  | case4 d e rest h ih =>
    rw [replaceDD, if_neg h]
    simp only [List.length_cons] at ih ⊢
    omega

theorem length_replaceDD_lt :
    ∀ {s : Str}, hasDD s = true → (replaceDD s).length < s.length := by
  intro s
  induction s using replaceDD.induct with
  | case1 => intro h; exact absurd h (by simp [hasDD])
  | case2 d => intro h; exact absurd h (by simp [hasDD])
  | case3 d e rest h ih =>
    intro _
    rw [replaceDD, if_pos h]
    have := length_replaceDD_le (s := rest)
    simp only [List.length_cons]
    omega
  | case4 d e rest h ih =>
    intro hdd
    rw [replaceDD, if_neg h]
    have hrest : hasDD (e :: rest) = true := by
      rw [hasDD] at hdd
      rcases Bool.or_eq_true_iff.mp hdd with h1 | h1
      · exact absurd ⟨by simpa using (Bool.and_eq_true_iff.mp h1).1,
          by simpa using (Bool.and_eq_true_iff.mp h1).2⟩ h
      · exact h1
    have := ih hrest
    simp only [List.length_cons] at this ⊢
    omega

theorem collapseGo_hasDD_eq_false :
    ∀ (n : Nat) {s : Str}, s.length ≤ n → hasDD (collapseGo n s) = false := by
  intro n
  induction n with
  | zero =>
    intro s hl
    have : s = [] := List.length_eq_zero.mp (Nat.le_zero.mp hl)
    subst this
    simp [collapseGo, hasDD]
  | succ n ih =>
    intro s hl
    rw [collapseGo]
    by_cases h : hasDD s = true
    · rw [if_pos h]
      exact ih (by have := length_replaceDD_lt h; omega)
    · rw [if_neg h]
      exact Bool.not_eq_true _ ▸ h

theorem mem_collapseGo {c : Char} :
    ∀ (n : Nat) {s : Str}, c ∈ collapseGo n s → c ∈ s := by
  intro n
  induction n with
  | zero => intro s h; exact h
  | succ n ih =>
    intro s h
    rw [collapseGo] at h
    split at h
    · exact mem_replaceDD (ih h)
    · exact h

theorem collapseGo_eq_self {s : Str} (h : hasDD s = false) :
    ∀ n, collapseGo n s = s := by
  intro n
  cases n with
  | zero => rfl
  | succ n => rw [collapseGo, if_neg (by simp [h])]

theorem hasDD_collapseDashes (s : Str) : hasDD (collapseDashes s) = false :=
  collapseGo_hasDD_eq_false s.length le_rfl

theorem mem_collapseDashes {c : Char} {s : Str} (h : c ∈ collapseDashes s) :
    c ∈ s := mem_collapseGo s.length h

theorem collapseDashes_eq_self {s : Str} (h : hasDD s = false) :
    collapseDashes s = s := collapseGo_eq_self h s.length

theorem hasDD_iff : ∀ {s : Str}, hasDD s = true ↔ ['-', '-'] <:+: s := by
  intro s
  induction s using hasDD.induct with
  | case1 =>
    simp only [hasDD]
    constructor
    · intro h; exact absurd h (by simp)
    · intro h; have := h.length_le; simp at this
  | case2 d =>
    simp only [hasDD]
    constructor
    · intro h; exact absurd h (by simp)
    · intro h; have := h.length_le; simp at this
  | case3 d e rest ih =>
    rw [hasDD]
    constructor
    · intro h
      rcases Bool.or_eq_true_iff.mp h with h1 | h1
      · have hd : d = '-' := by simpa using (Bool.and_eq_true_iff.mp h1).1
        have he : e = '-' := by simpa using (Bool.and_eq_true_iff.mp h1).2
        subst hd he
        exact ⟨[], rest, rfl⟩
      · exact (ih.mp h1).trans (List.suffix_cons d (e :: rest)).isInfix
    · intro h
      rcases List.infix_cons_iff.mp h with h1 | h1
      · rcases List.cons_prefix_cons.mp h1 with ⟨hd, h2⟩
        rcases List.cons_prefix_cons.mp h2 with ⟨he, _⟩
        simp [← hd, ← he]
      · simp [ih.mpr h1]

theorem head?_dropWhile_not (p : Char → Bool) :
    ∀ (l : Str) {c : Char}, (l.dropWhile p).head? = some c → p c = false := by
  intro l
  induction l with
  | nil => intro c h; simp at h
  | cons d rest ih =>
    intro c h
    by_cases hd : p d
    · rw [List.dropWhile_cons_of_pos hd] at h
      exact ih h
    · rw [List.dropWhile_cons_of_neg hd] at h
      simp only [List.head?_cons, Option.some.injEq] at h
      subst h
      exact Bool.not_eq_true _ ▸ hd

theorem getLast?_of_suffix {l1 l2 : Str} (h : l1 <:+ l2) (hne : l1 ≠ []) :
    l1.getLast? = l2.getLast? := by
  obtain ⟨pre, rfl⟩ := h
  exact (List.getLast?_append_of_ne_nil _ hne).symm

theorem pyStrip_isInfix (p : Char → Bool) (s : Str) : pyStrip p s <:+: s := by
  unfold pyStrip
  have h1 : s.dropWhile p <:+ s := List.dropWhile_suffix p
  have h2 : (s.dropWhile p).reverse.dropWhile p <:+ (s.dropWhile p).reverse :=
    List.dropWhile_suffix p
  have h3 : ((s.dropWhile p).reverse.dropWhile p).reverse <+: s.dropWhile p := by
    rw [← List.reverse_suffix]
    simpa using h2
  exact h3.isInfix.trans h1.isInfix

theorem mem_pyStrip {p : Char → Bool} {s : Str} {c : Char}
    (h : c ∈ pyStrip p s) : c ∈ s :=
  (pyStrip_isInfix p s).subset h

theorem pyStrip_head? {p : Char → Bool} {s : Str} {c : Char}
    (h : (pyStrip p s).head? = some c) : p c = false := by
  unfold pyStrip at h
  rw [List.head?_reverse] at h
  set u := (s.dropWhile p).reverse.dropWhile p with hu
  have hne : u ≠ [] := by
    intro he
    rw [he] at h
    simp at h
  have h2 : u.getLast? = (s.dropWhile p).reverse.getLast? :=
    getLast?_of_suffix (List.dropWhile_suffix p) hne
  rw [h2, List.getLast?_reverse] at h
  exact head?_dropWhile_not p _ h

theorem pyStrip_getLast? {p : Char → Bool} {s : Str} {c : Char}
    (h : (pyStrip p s).getLast? = some c) : p c = false := by
  unfold pyStrip at h
  rw [List.getLast?_reverse] at h
  exact head?_dropWhile_not p _ h

theorem dropWhile_eq_self_of_head {p : Char → Bool} {s : Str}
    (h : ∀ c, s.head? = some c → p c = false) : s.dropWhile p = s := by
  cases s with
  | nil => rfl
  | cons d rest =>
    exact List.dropWhile_cons_of_neg (by simp [h d rfl])

theorem pyStrip_eq_self {p : Char → Bool} {s : Str}
    (h1 : ∀ c, s.head? = some c → p c = false)
    (h2 : ∀ c, s.getLast? = some c → p c = false) : pyStrip p s = s := by
  unfold pyStrip
  rw [dropWhile_eq_self_of_head h1]
  rw [dropWhile_eq_self_of_head (by
    intro c hc
    rw [List.head?_reverse] at hc
    exact h2 c hc)]
  exact List.reverse_reverse s

/-! ## Claim theorems: migrator, sanitizer fallback, underscore rule,
reconciler divergence -/

/-- C1: when the expected target folder already exists on disk, one step
of the migration loop leaves the filesystem unchanged (no rename is
performed, whatever the dry-run flag), and `analyze_folder` reports
`conflict` whenever the current name differs from the expected name, the
current folder exists and the expected folder exists. -/
theorem migrator_conflict_safety (fs : List Str) (dryRun : Bool)
    (current expected : Str) (hexp : expected ∈ fs) :
    (migrationStep dryRun fs current expected).1 = fs ∧
    (current ≠ expected → current ∈ fs →
      analyze_folder fs current expected = "conflict".toList) := by
  have hstatus : analyze_folder fs current expected ≠ "needs_migration".toList := by
    unfold analyze_folder
    split_ifs with h1 h2 <;> decide
  refine ⟨?_, ?_⟩
  · unfold migrationStep
    rw [if_neg hstatus]
  · intro hne hcur
    unfold analyze_folder
    rw [if_neg hne, if_neg (not_not_intro hcur), if_pos hexp]

/-- C1 witness: a concrete conflicting state. -/
theorem migrator_conflict_safety_witness :
    "b".toList ∈ ["a".toList, "b".toList] ∧
    (migrationStep false ["a".toList, "b".toList] "a".toList "b".toList).1 =
      ["a".toList, "b".toList] ∧
    analyze_folder ["a".toList, "b".toList] "a".toList "b".toList =
      "conflict".toList := by
  have h := migrator_conflict_safety ["a".toList, "b".toList] false
    "a".toList "b".toList (by decide)
  exact ⟨by decide, h.1, h.2 (by decide) (by decide)⟩

/-- C3 counterexample: the reconciler's `slugify` maps `"&"` to the
empty string — it has no `"unknown"` fallback, so the claim that every
slug-producing function never returns the empty string fails. -/
theorem slugify_returns_empty_counterexample : slugify ['&'] = [] := by decide

/-- C3 (amended): `sanitize_folder_name` never returns the empty string
(the reconciler's `slugify`, by contrast, lacks the fallback). -/
theorem sanitize_folder_name_ne_empty (s : Str) :
    sanitize_folder_name s ≠ [] := by
  unfold sanitize_folder_name
  by_cases h1 : s = [] ∨ pyStrip pyIsSpace s = []
  · rw [if_pos h1]; decide
  · rw [if_neg h1]
    by_cases h2 : pyStrip pyIsSpace s ∈ emptyBracketLiterals
    · rw [if_pos h2]; decide
    · rw [if_neg h2]
      show (if sanitizeCore s = [] then unknownStr else sanitizeCore s) ≠ []
      by_cases h3 : sanitizeCore s = []
      · rw [if_pos h3]; decide
      · rw [if_neg h3]; exact h3

/-- C4: at the failing input `"ab_cd"` the reconciler's `slugify`
returns `"abcd"` while the Sanitizer returns `"ab-cd"`, and the
alternatives set misses the canonical slug — `slugify`'s docstring claim
of using the same logic as `music_collection_manager` does not hold. -/
theorem alternative_slugify_misses_canonical :
    slugify "ab_cd".toList = "abcd".toList ∧
    sanitize_folder_name "ab_cd".toList = "ab-cd".toList ∧
    sanitize_folder_name "ab_cd".toList ∉ alternative_slugify "ab_cd".toList := by
  refine ⟨by decide, by decide, by decide⟩

/-- C7: an underscore between two lowercase letters with no lowercase
continuation is deleted by the underscore regex step (merging the two
letters), every remaining underscore is turned into a dash by the
follow-up replacement, and the documented example holds:
`sanitize("G_d's Puzzle") = "gds-puzzle"`. -/
theorem underscore_resolution (x y : Char) (rest : Str)
    (hx : isAZ x = true) (hy : isAZ y = true)
    (hcont : isAZ (rest.headD ' ') = false) :
    subUnderscore (x :: '_' :: y :: rest) = x :: y :: subUnderscore rest ∧
    (∀ s : Str, '_' ∉ replaceChar '_' ['-'] s) ∧
    sanitize_folder_name
        ['G', '_', 'd', apos, 's', ' ', 'P', 'u', 'z', 'z', 'l', 'e'] =
      "gds-puzzle".toList := by
  refine ⟨?_, ?_, by decide⟩
  · rw [subUnderscore, if_pos ⟨rfl, hx, hy, by simp only [hcont]; decide⟩]
  · intro s
    exact not_mem_replaceChar (by decide)

/-- C7 witness: the rule applied at `g_d` followed by an apostrophe. -/
theorem underscore_resolution_witness :
    isAZ 'g' = true ∧ isAZ 'd' = true ∧ isAZ ([apos].headD ' ') = false ∧
    subUnderscore ('g' :: '_' :: 'd' :: [apos]) =
      'g' :: 'd' :: subUnderscore [apos] := by
  have h := underscore_resolution 'g' 'd' [apos] (by decide) (by decide)
    (by decide)
  exact ⟨by decide, by decide, by decide, h.1⟩

/-! ## Character provenance through the sanitizer (C2) -/

theorem lookup_eq_none_of_forall {l : List (Char × Char)} {a : Char}
    (h : ∀ p ∈ l, p.1 ≠ a) : l.lookup a = none := by
  induction l with
  | nil => rfl
  | cons p rest ih =>
    rcases p with ⟨k, v⟩
    have hk : (a == k) = false :=
      beq_eq_false_iff_ne.mpr fun he => h (k, v) (by simp) he.symm
    rw [List.lookup, hk]
    exact ih fun q hq => h q (List.mem_cons_of_mem _ hq)

theorem mem_of_lookup_eq_some {l : List (Char × Char)} {a b : Char} :
    l.lookup a = some b → (a, b) ∈ l := by
  induction l with
  | nil => intro h; simp [List.lookup] at h
  | cons p rest ih =>
    rcases p with ⟨k, v⟩
    intro h
    rw [List.lookup] at h
    rcases hk : a == k with _ | _
    · rw [hk] at h
      exact List.mem_cons_of_mem _ (ih h)
    · rw [hk] at h
      simp only [Option.some.injEq] at h
      have : a = k := by simpa using hk
      subst this
      subst h
      simp

theorem pyLowerChar_ascii {x : Char} (hx : x.toNat < 128) :
    (pyLowerChar x).toNat < 128 ∧
      ¬(65 ≤ (pyLowerChar x).toNat ∧ (pyLowerChar x).toNat ≤ 90) := by
  unfold pyLowerChar
  by_cases h : 65 ≤ x.toNat ∧ x.toNat ≤ 90
  · rw [if_pos h, toNat_ofNat_of_lt (by omega)]
    omega
  · rw [if_neg h]
    have hkeys : ∀ p ∈ lowerPairs, 127 < p.1.toNat := by decide
    have hl : lowerPairs.lookup x = none :=
      lookup_eq_none_of_forall fun p hp he => by
        have := hkeys p hp
        rw [he] at this
        omega
    rw [hl]
    simp only [Option.getD_none]
    exact ⟨hx, h⟩

theorem pool_of_pairs {c : Char} {p : Str × Str}
    (hp : p ∈ accentPairs ++ symbolPairs ++ removePairs ++ greekPairs)
    (hcp : c ∈ p.2) : c ∈ sanitizePool :=
  List.mem_cons_of_mem _ (List.mem_flatMap.mpr ⟨p, hp, hcp⟩)

theorem mem_folds {c : Char} {s : Str}
    (hc : c ∈ foldReplace greekPairs (foldReplace removePairs
      (foldReplace symbolPairs (foldReplace accentPairs s)))) :
    c ∈ s ∨ c ∈ sanitizePool := by
  rcases mem_foldReplace hc with h | ⟨p, hp, hcp⟩
  · rcases mem_foldReplace h with h | ⟨p, hp, hcp⟩
    · rcases mem_foldReplace h with h | ⟨p, hp, hcp⟩
      · rcases mem_foldReplace h with h | ⟨p, hp, hcp⟩
        · exact Or.inl h
        · exact Or.inr (pool_of_pairs (by simp [hp]) hcp)
      · exact Or.inr (pool_of_pairs (by simp [hp]) hcp)
    · exact Or.inr (pool_of_pairs (by simp [hp]) hcp)
  · exact Or.inr (pool_of_pairs (by simp [hp]) hcp)

theorem mem_sanitizeFiltered {c : Char} {s : Str}
    (hc : c ∈ sanitizeFiltered s) :
    (pyIsAlnum c = true ∨ c = '-') ∧ (c ∈ pyLower s ∨ c ∈ sanitizePool) := by
  have h2 := List.mem_filter.mp hc
  refine ⟨?_, ?_⟩
  · rcases Bool.or_eq_true_iff.mp h2.2 with h | h
    · exact Or.inl h
    · exact Or.inr (by simpa using h)
  · have h3 : c ∈ sanitizePrefilter s := h2.1
    simp only [sanitizePrefilter] at h3
    rcases mem_folds h3 with h3 | hpool
    swap
    · exact Or.inr hpool
    have h4 := (mem_replaceChar h3).resolve_right (by simp)
    have h5 := (mem_replaceChar h4).resolve_right (by simp)
    have h6 := (mem_replaceChar h5).resolve_right (by simp)
    have h7 := (mem_replaceChar h6).resolve_right (by simp)
    have h8 := (mem_replaceChar h7).resolve_right (by simp)
    have h9 := (mem_replaceChar h8).resolve_right (by simp)
    have h10 := (mem_replaceChar h9).resolve_right (by simp)
    have h11 := (mem_replaceChar h10).resolve_right (by simp)
    have h12 := (mem_replaceChar h11).resolve_right (by simp)
    have h13 := (mem_replaceChar h12).resolve_right (by simp)
    have h14 := (mem_replaceChar h13).resolve_right (by simp)
    have h15 := (mem_replaceChar h14).resolve_right (by simp)
    rcases mem_replaceChar h15 with h16 | hd
    swap
    · exact Or.inr (by simp [sanitizePool, by simpa using hd])
    have h17 := mem_subUnderscore h16
    rcases mem_subSpaces h17 with h18 | hd
    swap
    · exact Or.inr (by simp [sanitizePool, hd])
    exact Or.inl h18

theorem mem_sanitizeCore {c : Char} {s : Str} (hc : c ∈ sanitizeCore s) :
    (pyIsAlnum c = true ∨ c = '-') ∧ (c ∈ pyLower s ∨ c ∈ sanitizePool) :=
  mem_sanitizeFiltered (mem_collapseDashes (mem_pyStrip hc))

theorem sanitizeCore_head? {s : Str} {c : Char}
    (h : (sanitizeCore s).head? = some c) : c ≠ '-' := by
  have := pyStrip_head? h
  simpa using this

theorem sanitizeCore_getLast? {s : Str} {c : Char}
    (h : (sanitizeCore s).getLast? = some c) : c ≠ '-' := by
  have := pyStrip_getLast? h
  simpa using this

theorem sanitizeCore_no_dd (s : Str) : ¬(['-', '-'] <:+: sanitizeCore s) := by
  intro hinf
  have hsub : sanitizeCore s <:+: collapseDashes (sanitizeFiltered s) :=
    pyStrip_isInfix _ _
  have hdd := hasDD_iff.mpr (hinf.trans hsub)
  rw [hasDD_collapseDashes] at hdd
  exact absurd hdd (by simp)

theorem unknown_no_dd : ¬(['-', '-'] <:+: unknownStr) := by
  intro h
  rcases h with ⟨t, u, ht⟩
  have : '-' ∈ unknownStr := by
    rw [← ht]
    simp
  exact absurd this (by decide)

/-- C2 counterexample: on the Cyrillic input `"к"` the sanitizer returns
`"к"`, whose character is outside `[a-z0-9-]` (CPython's `isalnum` is
Unicode-wide, so the final filter keeps it). -/
theorem sanitize_character_domain_counterexample :
    sanitize_folder_name ['к'] = ['к'] ∧
    ¬((97 ≤ ('к').toNat ∧ ('к').toNat ≤ 122) ∨
      (48 ≤ ('к').toNat ∧ ('к').toNat ≤ 57) ∨ ('к') = '-') := by
  constructor
  · decide
  · decide

/-- C2 (amended): for every input the sanitizer output has no leading
dash, no trailing dash and no `--` substring, and every character is
alphanumeric (in CPython's Unicode sense) or a dash; when the input is
pure ASCII the output uses only `[a-z0-9-]`. -/
theorem sanitize_character_domain (s : Str) :
    (sanitize_folder_name s).head? ≠ some '-' ∧
    (sanitize_folder_name s).getLast? ≠ some '-' ∧
    ¬(['-', '-'] <:+: sanitize_folder_name s) ∧
    (∀ c ∈ sanitize_folder_name s, pyIsAlnum c = true ∨ c = '-') ∧
    ((∀ c ∈ s, c.toNat < 128) → ∀ c ∈ sanitize_folder_name s,
      (97 ≤ c.toNat ∧ c.toNat ≤ 122) ∨ (48 ≤ c.toNat ∧ c.toNat ≤ 57) ∨
        c = '-') := by
  unfold sanitize_folder_name
  by_cases h1 : s = [] ∨ pyStrip pyIsSpace s = []
  · rw [if_pos h1]
    exact ⟨by decide, by decide, unknown_no_dd, by decide, fun _ => by decide⟩
  rw [if_neg h1]
  by_cases h2 : pyStrip pyIsSpace s ∈ emptyBracketLiterals
  · rw [if_pos h2]
    exact ⟨by decide, by decide, unknown_no_dd, by decide, fun _ => by decide⟩
  rw [if_neg h2]
  show ((if sanitizeCore s = [] then unknownStr else sanitizeCore s).head? ≠
      some '-') ∧ _
  by_cases h3 : sanitizeCore s = []
  · rw [if_pos h3]
    exact ⟨by decide, by decide, unknown_no_dd, by decide, fun _ => by decide⟩
  rw [if_neg h3]
  refine ⟨?_, ?_, sanitizeCore_no_dd s, ?_, ?_⟩
  · intro hh
    exact sanitizeCore_head? hh rfl
  · intro hh
    exact sanitizeCore_getLast? hh rfl
  · intro c hcm
    exact (mem_sanitizeCore hcm).1
  · intro hascii c hcm
    rcases mem_sanitizeCore hcm with ⟨hdom, hsrc⟩
    rcases hsrc with hsrc | hpool
    · rcases List.mem_map.mp hsrc with ⟨x, hx, rfl⟩
      have := pyLowerChar_ascii (hascii x hx)
      rcases hdom with hal | hd
      · simp only [pyIsAlnum, decide_eq_true_eq] at hal
        have hr : (97 ≤ (pyLowerChar x).toNat ∧ (pyLowerChar x).toNat ≤ 122) ∨
            (48 ≤ (pyLowerChar x).toNat ∧ (pyLowerChar x).toNat ≤ 57) := by
          omega
        rcases hr with hr | hr
        · exact Or.inl hr
        · exact Or.inr (Or.inl hr)
      · exact Or.inr (Or.inr hd)
    · have hall : ∀ d ∈ sanitizePool,
          (97 ≤ d.toNat ∧ d.toNat ≤ 122) ∨ (48 ≤ d.toNat ∧ d.toNat ≤ 57) ∨
            d = '-' := by decide
      exact hall c hpool

/-- C2 witness: an ASCII input instantiating the ASCII part. -/
theorem sanitize_character_domain_witness :
    (∀ c ∈ ("A B".toList : Str), c.toNat < 128) ∧
    (∀ c ∈ sanitize_folder_name "A B".toList,
      (97 ≤ c.toNat ∧ c.toNat ≤ 122) ∨ (48 ≤ c.toNat ∧ c.toNat ≤ 57) ∨
        c = '-') :=
  ⟨by decide, (sanitize_character_domain "A B".toList).2.2.2.2 (by decide)⟩

/-! ## Idempotence of the sanitizer (C8) -/

theorem map_eq_self_of {f : Char → Char} :
    ∀ {t : Str}, (∀ c ∈ t, f c = c) → t.map f = t := by
  intro t
  induction t with
  | nil => intro _; rfl
  | cons d rest ih =>
    intro h
    simp only [List.map_cons, h d (by simp), List.cons.injEq, true_and]
    exact ih fun c hc => h c (by simp [hc])

theorem pyLowerChar_idem (c : Char) :
    pyLowerChar (pyLowerChar c) = pyLowerChar c := by
  have hkeys : ∀ p ∈ lowerPairs, 127 < p.1.toNat := by decide
  have hvals : ∀ p ∈ lowerPairs,
      ¬(65 ≤ p.2.toNat ∧ p.2.toNat ≤ 90) ∧ lowerPairs.lookup p.2 = none := by
    decide
  by_cases h : 65 ≤ c.toNat ∧ c.toNat ≤ 90
  · have h1 : pyLowerChar c = Char.ofNat (c.toNat + 32) := by
      unfold pyLowerChar
      rw [if_pos h]
    have ht : (Char.ofNat (c.toNat + 32)).toNat = c.toNat + 32 :=
      toNat_ofNat_of_lt (by omega)
    rw [h1]
    unfold pyLowerChar
    rw [if_neg (by omega), lookup_eq_none_of_forall fun p hp he => by
      have := hkeys p hp
      rw [he] at this
      omega]
    rfl
  · have h1 : pyLowerChar c = (lowerPairs.lookup c).getD c := by
      unfold pyLowerChar
      rw [if_neg h]
    rcases hl : lowerPairs.lookup c with _ | v
    · rw [h1, hl]
      simp only [Option.getD_none]
      rw [h1, hl]
      rfl
    · rw [h1, hl]
      simp only [Option.getD_some]
      have hmem := mem_of_lookup_eq_some hl
      have hv := hvals (c, v) hmem
      unfold pyLowerChar
      rw [if_neg hv.1, hv.2]
      rfl

theorem not_mem_foldReplace {ps : List (Str × Str)} {k : Char} {t : Str}
    (hkt : k ∉ t) (hvals : ∀ p ∈ ps, k ∉ p.2) : k ∉ foldReplace ps t := by
  intro hm
  rcases mem_foldReplace hm with h | ⟨p, hp, hcp⟩
  · exact hkt h
  · exact hvals p hp hcp

theorem foldReplace_pair_absent {ps : List (Str × Str)} {k : Char} {v : Str}
    (hpair : ([k], v) ∈ ps) (hkv : k ∉ v)
    (hvals : ∀ p ∈ ps, k ∉ p.2) : ∀ t, k ∉ foldReplace ps t := by
  induction ps with
  | nil => intro t; exact absurd hpair (by simp)
  | cons p rest ih =>
    intro t
    rcases List.mem_cons.mp hpair with hp | hp
    · show k ∉ foldReplace rest (replaceSub p.1 p.2 t)
      have hk1 : k ∉ replaceSub p.1 p.2 t := by
        rw [← hp]
        exact not_mem_replaceChar hkv
      exact not_mem_foldReplace hk1
        fun q hq => hvals q (List.mem_cons_of_mem _ hq)
    · exact ih hp (fun q hq => hvals q (List.mem_cons_of_mem _ hq)) _

theorem folds_key_absent {u : Str} {p : Str × Str}
    (hp : p ∈ accentPairs ++ symbolPairs ++ greekPairs) :
    p.1.headD ' ' ∉ foldReplace greekPairs (foldReplace removePairs
      (foldReplace symbolPairs (foldReplace accentPairs u))) := by
  have hsingle : ∀ q ∈ accentPairs ++ symbolPairs ++ greekPairs,
      q.1 = [q.1.headD ' '] := by decide
  have hnoval : ∀ q ∈ accentPairs ++ symbolPairs ++ greekPairs,
      ∀ r ∈ accentPairs ++ symbolPairs ++ removePairs ++ greekPairs,
        q.1.headD ' ' ∉ r.2 := by decide
  have hk := hsingle p hp
  have hvAll := hnoval p hp
  have hvAcc : ∀ r ∈ accentPairs, p.1.headD ' ' ∉ r.2 := fun r hr =>
    hvAll r (List.mem_append_left _ (List.mem_append_left _
      (List.mem_append_left _ hr)))
  have hvSym : ∀ r ∈ symbolPairs, p.1.headD ' ' ∉ r.2 := fun r hr =>
    hvAll r (List.mem_append_left _ (List.mem_append_left _
      (List.mem_append_right _ hr)))
  have hvRem : ∀ r ∈ removePairs, p.1.headD ' ' ∉ r.2 := fun r hr =>
    hvAll r (List.mem_append_left _ (List.mem_append_right _ hr))
  have hvGrk : ∀ r ∈ greekPairs, p.1.headD ' ' ∉ r.2 := fun r hr =>
    hvAll r (List.mem_append_right _ hr)
  have hpmem : ([p.1.headD ' '], p.2) ∈ accentPairs ++ symbolPairs ++
      greekPairs := by
    rw [← hk]
    simpa using hp
  rcases List.mem_append.mp hpmem with hp2 | hgreek
  · rcases List.mem_append.mp hp2 with haccent | hsymbol
    · have h1 : p.1.headD ' ' ∉ foldReplace accentPairs u :=
        foldReplace_pair_absent haccent (hvAcc ([p.1.headD ' '], p.2) haccent) hvAcc u
      have h2 := not_mem_foldReplace h1 hvSym
      have h3 := not_mem_foldReplace h2 hvRem
      exact not_mem_foldReplace h3 hvGrk
    · have h1 : p.1.headD ' ' ∉ foldReplace symbolPairs
          (foldReplace accentPairs u) :=
        foldReplace_pair_absent hsymbol (hvSym ([p.1.headD ' '], p.2) hsymbol) hvSym _
      have h2 := not_mem_foldReplace h1 hvRem
      exact not_mem_foldReplace h2 hvGrk
  · exact foldReplace_pair_absent hgreek (hvGrk ([p.1.headD ' '], p.2) hgreek) hvGrk _

theorem sanitizeCore_key_absent {s : Str} {p : Str × Str}
    (hp : p ∈ accentPairs ++ symbolPairs ++ greekPairs) :
    p.1.headD ' ' ∉ sanitizeCore s := by
  intro hmem
  have h1 : p.1.headD ' ' ∈ sanitizePrefilter s :=
    (List.mem_filter.mp (mem_collapseDashes (mem_pyStrip hmem))).1
  simp only [sanitizePrefilter] at h1
  exact folds_key_absent hp h1

theorem alnum_not_space {c : Char} (h : pyIsAlnum c = true ∨ c = '-') :
    pyIsSpace c = false := by
  rcases h with h | h
  · simp only [pyIsAlnum, decide_eq_true_eq] at h
    simp only [pyIsSpace, decide_eq_false_iff_not]
    omega
  · subst h
    decide

/-- Inputs on which a whole second sanitizer run is the identity:
already-clean strings (and `"unknown"` is one of them). -/
theorem sanitize_fixed {t : Str}
    (hG1 : ∀ c ∈ t, pyIsAlnum c = true ∨ c = '-')
    (hG2 : ∀ c ∈ t, pyLowerChar c = c)
    (hG3 : ∀ p ∈ accentPairs ++ symbolPairs ++ greekPairs, p.1.headD ' ' ∉ t)
    (hG4 : hasDD t = false)
    (hG5h : t.head? ≠ some '-') (hG5l : t.getLast? ≠ some '-')
    (hne : t ≠ []) : sanitize_folder_name t = t := by
  have hnoWs : ∀ c ∈ t, ¬ pyIsSpace c = true := fun c hc => by
    rw [alnum_not_space (hG1 c hc)]
    simp
  have hstrip : pyStrip pyIsSpace t = t :=
    pyStrip_eq_self
      (fun c hc => alnum_not_space (hG1 c (List.mem_of_mem_head? hc)))
      (fun c hc => alnum_not_space (hG1 c (List.mem_of_mem_getLast? hc)))
  have hnotchar : ∀ x : Char, pyIsAlnum x = false → x ≠ '-' → x ∉ t := by
    intro x hx1 hx2 hxt
    rcases hG1 x hxt with h | h
    · rw [hx1] at h
      exact absurd h (by simp)
    · exact hx2 h
  unfold sanitize_folder_name
  rw [if_neg (by
    rw [hstrip]
    simp [hne])]
  rw [if_neg (by
    rw [hstrip]
    intro hmem
    simp only [emptyBracketLiterals, List.mem_cons] at hmem
    rcases hmem with h | h | h | h | h | h
    · exact hnotchar '(' (by decide) (by decide) (by rw [h]; simp)
    · exact hnotchar '(' (by decide) (by decide) (by rw [h]; simp)
    · exact hnotchar '[' (by decide) (by decide) (by rw [h]; simp)
    · exact hnotchar '[' (by decide) (by decide) (by rw [h]; simp)
    · exact hnotchar (Char.ofNat 0x7b) (by decide) (by decide)
        (by rw [h]; simp)
    · simp at h
      exact hnotchar (Char.ofNat 0x7b) (by decide) (by decide)
        (by rw [h]; simp))]
  have hsingle : ∀ q ∈ accentPairs ++ symbolPairs ++ greekPairs,
      q.1 = [q.1.headD ' '] := by decide
  have hremove : ∀ q ∈ removePairs, q.1.headD ' ' ∈ q.1 ∧
      pyIsAlnum (q.1.headD ' ') = false ∧ q.1.headD ' ' ≠ '-' := by decide
  have hpre : sanitizePrefilter t = t := by
    simp only [sanitizePrefilter, pyLower]
    rw [map_eq_self_of hG2]
    rw [subSpaces_eq_self hnoWs]
    rw [subUnderscore_eq_self (hnotchar '_' (by decide) (by decide))]
    rw [replaceChar_eq_self (hnotchar '_' (by decide) (by decide))]
    rw [replaceChar_eq_self (hnotchar '[' (by decide) (by decide))]
    rw [replaceChar_eq_self (hnotchar ']' (by decide) (by decide))]
    rw [replaceChar_eq_self (hnotchar (Char.ofNat 0x7b) (by decide) (by decide))]
    rw [replaceChar_eq_self (hnotchar (Char.ofNat 0x7d) (by decide) (by decide))]
    rw [replaceChar_eq_self (hnotchar '&' (by decide) (by decide))]
    rw [replaceChar_eq_self (hnotchar apos (by decide) (by decide))]
    rw [replaceChar_eq_self (hnotchar dquote (by decide) (by decide))]
    rw [replaceChar_eq_self (hnotchar '.' (by decide) (by decide))]
    rw [replaceChar_eq_self (hnotchar '!' (by decide) (by decide))]
    rw [replaceChar_eq_self (hnotchar '?' (by decide) (by decide))]
    rw [replaceChar_eq_self (hnotchar ';' (by decide) (by decide))]
    rw [replaceChar_eq_self (hnotchar ':' (by decide) (by decide))]
    rw [foldReplace_eq_self fun p hp =>
      ⟨p.1.headD ' ', by rw [hsingle p (by simp [hp])]; simp,
        hG3 p (by simp [hp])⟩]
    rw [foldReplace_eq_self fun p hp =>
      ⟨p.1.headD ' ', by rw [hsingle p (by simp [hp])]; simp,
        hG3 p (by simp [hp])⟩]
    rw [foldReplace_eq_self fun p hp =>
      ⟨p.1.headD ' ', (hremove p hp).1,
        hnotchar _ (hremove p hp).2.1 (hremove p hp).2.2⟩]
    rw [foldReplace_eq_self fun p hp =>
      ⟨p.1.headD ' ', by rw [hsingle p (by simp [hp])]; simp,
        hG3 p (by simp [hp])⟩]
  have hfilt : sanitizeFiltered t = t := by
    simp only [sanitizeFiltered, hpre]
    refine List.filter_eq_self.mpr fun c hc => ?_
    rcases hG1 c hc with h | h
    · simp [h]
    · simp [h]
  show (if sanitizeCore t = [] then unknownStr else sanitizeCore t) = t
  have hcore : sanitizeCore t = t := by
    simp only [sanitizeCore, hfilt, collapseDashes_eq_self hG4]
    refine pyStrip_eq_self (fun c hc => ?_) (fun c hc => ?_)
    · rcases hd : decide (c = '-') with _ | _
      · rfl
      · have : c = '-' := of_decide_eq_true hd
        subst this
        exact absurd hc hG5h
    · rcases hd : decide (c = '-') with _ | _
      · rfl
      · have : c = '-' := of_decide_eq_true hd
        subst this
        exact absurd hc hG5l
  rw [hcore, if_neg hne]

/-- The output of the sanitizer is always an already-clean string. -/
theorem sanitize_output_good (s : Str) :
    (∀ c ∈ sanitize_folder_name s, pyIsAlnum c = true ∨ c = '-') ∧
    (∀ c ∈ sanitize_folder_name s, pyLowerChar c = c) ∧
    (∀ p ∈ accentPairs ++ symbolPairs ++ greekPairs,
      p.1.headD ' ' ∉ sanitize_folder_name s) ∧
    hasDD (sanitize_folder_name s) = false ∧
    (sanitize_folder_name s).head? ≠ some '-' ∧
    (sanitize_folder_name s).getLast? ≠ some '-' := by
  have hdom := sanitize_character_domain s
  have hpool : ∀ d ∈ sanitizePool, pyLowerChar d = d := by decide
  have hunk1 : ∀ c ∈ unknownStr, pyLowerChar c = c := by decide
  have hunk3 : ∀ p ∈ accentPairs ++ symbolPairs ++ greekPairs,
      p.1.headD ' ' ∉ unknownStr := by decide
  refine ⟨hdom.2.2.2.1, ?_, ?_, ?_, hdom.1, hdom.2.1⟩
  · unfold sanitize_folder_name
    by_cases h1 : s = [] ∨ pyStrip pyIsSpace s = []
    · rw [if_pos h1]; exact hunk1
    rw [if_neg h1]
    by_cases h2 : pyStrip pyIsSpace s ∈ emptyBracketLiterals
    · rw [if_pos h2]; exact hunk1
    rw [if_neg h2]
    show ∀ c ∈ (if sanitizeCore s = [] then unknownStr else sanitizeCore s),
      pyLowerChar c = c
    by_cases h3 : sanitizeCore s = []
    · rw [if_pos h3]; exact hunk1
    rw [if_neg h3]
    intro c hc
    rcases (mem_sanitizeCore hc).2 with hsrc | hsrc
    · rcases List.mem_map.mp hsrc with ⟨x, _, rfl⟩
      exact pyLowerChar_idem x
    · exact hpool c hsrc
  · unfold sanitize_folder_name
    by_cases h1 : s = [] ∨ pyStrip pyIsSpace s = []
    · rw [if_pos h1]; exact hunk3
    rw [if_neg h1]
    by_cases h2 : pyStrip pyIsSpace s ∈ emptyBracketLiterals
    · rw [if_pos h2]; exact hunk3
    rw [if_neg h2]
    show ∀ p ∈ accentPairs ++ symbolPairs ++ greekPairs, p.1.headD ' ' ∉
      (if sanitizeCore s = [] then unknownStr else sanitizeCore s)
    by_cases h3 : sanitizeCore s = []
    · rw [if_pos h3]; exact hunk3
    rw [if_neg h3]
    intro p hp
    exact sanitizeCore_key_absent hp
  · unfold sanitize_folder_name
    by_cases h1 : s = [] ∨ pyStrip pyIsSpace s = []
    · rw [if_pos h1]; decide
    rw [if_neg h1]
    by_cases h2 : pyStrip pyIsSpace s ∈ emptyBracketLiterals
    · rw [if_pos h2]; decide
    rw [if_neg h2]
    show hasDD (if sanitizeCore s = [] then unknownStr else sanitizeCore s)
      = false
    by_cases h3 : sanitizeCore s = []
    · rw [if_pos h3]; decide
    rw [if_neg h3]
    rcases hdd : hasDD (sanitizeCore s) with _ | _
    · rfl
    · exact absurd (hasDD_iff.mp hdd) (sanitizeCore_no_dd s)

/-- C8: the sanitizer is idempotent. -/
theorem sanitize_idempotent (s : Str) :
    sanitize_folder_name (sanitize_folder_name s) = sanitize_folder_name s := by
  have hg := sanitize_output_good s
  exact sanitize_fixed hg.1 hg.2.1 hg.2.2.1 hg.2.2.2.1 hg.2.2.2.2.1
    hg.2.2.2.2.2 (sanitize_folder_name_ne_empty s)

/-! ## Reconciler matching (C5, C9) -/

theorem mem_insertDesc {l : List (Str × ℚ)} {p q : Str × ℚ}
    (h : q ∈ insertDesc l p) : q = p ∨ q ∈ l := by
  induction l with
  | nil => simpa [insertDesc] using h
  | cons r rest ih =>
    rw [insertDesc] at h
    by_cases hc : r.2 < p.2
    · rw [if_pos hc] at h
      rcases List.mem_cons.mp h with h | h
      · exact Or.inl h
      · exact Or.inr h
    · rw [if_neg hc] at h
      rcases List.mem_cons.mp h with h | h
      · exact Or.inr (by simp [h])
      · rcases ih h with h | h
        · exact Or.inl h
        · exact Or.inr (List.mem_cons_of_mem _ h)

theorem length_insertDesc (l : List (Str × ℚ)) (p : Str × ℚ) :
    (insertDesc l p).length = l.length + 1 := by
  induction l with
  | nil => rfl
  | cons r rest ih =>
    rw [insertDesc]
    by_cases hc : r.2 < p.2
    · rw [if_pos hc]
      simp
    · rw [if_neg hc]
      simp [ih]

theorem mem_sortDesc_aux {q : Str × ℚ} :
    ∀ (l acc : List (Str × ℚ)), q ∈ l.foldl insertDesc acc →
      q ∈ acc ∨ q ∈ l := by
  intro l
  induction l with
  | nil => intro acc h; exact Or.inl h
  | cons p rest ih =>
    intro acc h
    rcases ih (insertDesc acc p) h with h | h
    · rcases mem_insertDesc h with h | h
      · exact Or.inr (by simp [h])
      · exact Or.inl h
    · exact Or.inr (List.mem_cons_of_mem _ h)

theorem mem_sortDesc {l : List (Str × ℚ)} {q : Str × ℚ}
    (h : q ∈ sortDesc l) : q ∈ l := by
  rcases mem_sortDesc_aux l [] h with h | h
  · exact absurd h (by simp)
  · exact h

theorem length_sortDesc (l : List (Str × ℚ)) :
    (sortDesc l).length = l.length := by
  suffices h : ∀ acc : List (Str × ℚ),
      (l.foldl insertDesc acc).length = acc.length + l.length by
    simpa using h []
  induction l with
  | nil => intro acc; simp
  | cons p rest ih =>
    intro acc
    simp only [List.foldl_cons, ih (insertDesc acc p), length_insertDesc,
      List.length_cons]
    omega

theorem upsertMax_keys (acc : List (Str × ℚ)) (p : Str × ℚ) :
    (upsertMax acc p).map Prod.fst =
      if p.1 ∈ acc.map Prod.fst then acc.map Prod.fst
      else acc.map Prod.fst ++ [p.1] := by
  induction acc with
  | nil => simp [upsertMax]
  | cons r rest ih =>
    rw [upsertMax]
    by_cases hc : r.1 = p.1
    · rw [if_pos hc]
      by_cases hs : r.2 < p.2
      · rw [if_pos hs]
        simp [hc]
      · rw [if_neg hs]
        simp [hc]
    · rw [if_neg hc]
      by_cases hm : p.1 ∈ rest.map Prod.fst
      · simp only [List.map_cons, ih, if_pos hm]
        rw [if_pos (by simp [hm])]
      · simp only [List.map_cons, ih, if_neg hm]
        rw [if_neg (by
          simp only [List.mem_cons]
          rintro (he | he)
          · exact hc he.symm
          · exact hm he)]
        simp

theorem uniqueMax_count :
    ∀ (l acc : List (Str × ℚ)), (acc.map Prod.fst).Nodup →
      (l.foldl upsertMax acc).length =
        ((acc.map Prod.fst ++ l.map Prod.fst).toFinset).card := by
  intro l
  induction l with
  | nil =>
    intro acc hnd
    simp only [List.map_nil, List.append_nil, List.foldl_nil]
    rw [List.toFinset_card_of_nodup hnd]
    simp
  | cons p rest ih =>
    intro acc hnd
    simp only [List.foldl_cons]
    have hkeys := upsertMax_keys acc p
    by_cases hm : p.1 ∈ acc.map Prod.fst
    · rw [if_pos hm] at hkeys
      have hnd2 : ((upsertMax acc p).map Prod.fst).Nodup := by
        rw [hkeys]; exact hnd
      rw [ih (upsertMax acc p) hnd2, hkeys]
      congr 1
      ext x
      simp only [List.mem_toFinset, List.mem_append, List.mem_map,
        List.map_cons, List.mem_cons]
      constructor
      · rintro (h | h)
        · exact Or.inl h
        · exact Or.inr (Or.inr h)
      · rintro (h | h | h)
        · exact Or.inl h
        · subst h
          exact Or.inl (by simpa using hm)
        · exact Or.inr h
    · rw [if_neg hm] at hkeys
      have hnd2 : ((upsertMax acc p).map Prod.fst).Nodup := by
        rw [hkeys]
        simp only [List.nodup_append, List.nodup_cons]
        exact ⟨hnd, by simp, by simpa using hm⟩
      rw [ih (upsertMax acc p) hnd2, hkeys, List.append_assoc]
      rfl

theorem length_uniqueMax (l : List (Str × ℚ)) :
    (uniqueMax l).length = ((l.map Prod.fst).toFinset).card := by
  have := uniqueMax_count l [] (by simp)
  simpa [uniqueMax] using this

theorem upsertMax_keys_mem {acc : List (Str × ℚ)} {p q : Str × ℚ}
    (h : q ∈ upsertMax acc p) : q.1 = p.1 ∨ q.1 ∈ acc.map Prod.fst := by
  have hk : q.1 ∈ (upsertMax acc p).map Prod.fst := List.mem_map_of_mem _ h
  rw [upsertMax_keys] at hk
  by_cases hm : p.1 ∈ acc.map Prod.fst
  · rw [if_pos hm] at hk
    exact Or.inr hk
  · rw [if_neg hm] at hk
    rcases List.mem_append.mp hk with hk | hk
    · exact Or.inr hk
    · exact Or.inl (by simpa using hk)

theorem mem_uniqueMax_keys {q : Str × ℚ} :
    ∀ (l acc : List (Str × ℚ)), q ∈ l.foldl upsertMax acc →
      q.1 ∈ acc.map Prod.fst ∨ q.1 ∈ l.map Prod.fst := by
  intro l
  induction l with
  | nil => intro acc h; exact Or.inl (List.mem_map_of_mem _ h)
  | cons p rest ih =>
    intro acc h
    rcases ih (upsertMax acc p) h with h | h
    · rw [upsertMax_keys] at h
      by_cases hm : p.1 ∈ acc.map Prod.fst
      · rw [if_pos hm] at h
        exact Or.inl h
      · rw [if_neg hm] at h
        rcases List.mem_append.mp h with h | h
        · exact Or.inl h
        · exact Or.inr (by simp at h; simp [h])
    · exact Or.inr (List.mem_cons_of_mem _ h)

theorem folderCandidates_name {unmatched : List Artist} {folder : Str}
    {threshold : ℚ} {pr : Str × ℚ}
    (h : pr ∈ folderCandidates unmatched folder threshold) :
    ∃ b ∈ unmatched, pr.1 = b.aname := by
  rcases List.mem_flatMap.mp h with ⟨b, hb, hmem⟩
  rcases List.mem_append.mp hmem with hm | hm
  · by_cases hc : threshold ≤ similarity_score folder b.aname
    · rw [if_pos hc] at hm
      simp only [List.mem_singleton] at hm
      exact ⟨b, hb, by rw [hm]⟩
    · rw [if_neg hc] at hm
      exact absurd hm (by simp)
  · rcases List.mem_filterMap.mp hm with ⟨slug, _, heq⟩
    by_cases hc : threshold ≤ similarity_score folder slug
    · rw [if_pos hc] at heq
      simp only [Option.some.injEq] at heq
      exact ⟨b, hb, by rw [← heq]⟩
    · rw [if_neg hc] at heq
      exact absurd heq (by simp)

theorem folderCandidates_mono {unmatched : List Artist} {folder : Str}
    {t1 t2 : ℚ} (ht : t1 ≤ t2) {pr : Str × ℚ}
    (h : pr ∈ folderCandidates unmatched folder t2) :
    pr ∈ folderCandidates unmatched folder t1 := by
  rcases List.mem_flatMap.mp h with ⟨b, hb, hmem⟩
  refine List.mem_flatMap.mpr ⟨b, hb, ?_⟩
  rcases List.mem_append.mp hmem with hm | hm
  · refine List.mem_append.mpr (Or.inl ?_)
    by_cases hc : t2 ≤ similarity_score folder b.aname
    · rw [if_pos hc] at hm
      rw [if_pos (le_trans ht hc)]
      exact hm
    · rw [if_neg hc] at hm
      exact absurd hm (by simp)
  · refine List.mem_append.mpr (Or.inr ?_)
    rcases List.mem_filterMap.mp hm with ⟨slug, hslug, heq⟩
    by_cases hc : t2 ≤ similarity_score folder slug
    · rw [if_pos hc] at heq
      exact List.mem_filterMap.mpr ⟨slug, hslug,
        by rw [if_pos (le_trans ht hc)]; exact heq⟩
    · rw [if_neg hc] at heq
      exact absurd heq (by simp)

/-- C5: an entity one of whose slugs equals an on-disk folder is
classified as matched, and fuzzy candidates are drawn only from the
residual unmatched entities: the matched entity's name never appears in
any folder's candidate list. -/
theorem exact_match_priority (artists : List Artist) (folders : List Str)
    (threshold : ℚ) (a : Artist) (ha : a ∈ artists)
    (hslug : ∃ slug ∈ artistSlugs a, slug ∈ folders) :
    a.aid ∈ matchedIds artists folders ∧
    ∀ fc ∈ find_potential_matches artists folders threshold,
      ∀ cand ∈ fc.2, cand.1 ≠ a.aname := by
  have hmatched : ∀ b : Artist, b ∈ artists → b.aname = a.aname →
      b.aid ∈ matchedIds artists folders := by
    intro b hbm hbn
    refine List.mem_map_of_mem _ (List.mem_filter.mpr ⟨hbm, ?_⟩)
    rcases hslug with ⟨slug, hs1, hs2⟩
    refine List.any_eq_true.mpr ⟨slug, ?_, by simpa using hs2⟩
    show slug ∈ alternative_slugify b.aname
    rw [hbn]
    exact hs1
  refine ⟨hmatched a ha rfl, ?_⟩
  intro fc hfc cand hcand hname
  rcases List.mem_filterMap.mp hfc with ⟨folder, _, heq⟩
  by_cases hms : folderCandidates (unmatchedArtists artists folders) folder
      threshold = []
  · rw [if_pos hms] at heq
    exact absurd heq (by simp)
  · rw [if_neg hms] at heq
    simp only [Option.some.injEq] at heq
    have hc2 : cand ∈ sortDesc (uniqueMax (folderCandidates
        (unmatchedArtists artists folders) folder threshold)) := by
      rw [← heq] at hcand
      exact hcand
    have hkey := mem_uniqueMax_keys _ [] (mem_sortDesc hc2)
    rcases hkey with hk | hk
    · exact absurd hk (by simp)
    · rcases List.mem_map.mp hk with ⟨pr, hpr, hpr1⟩
      rcases folderCandidates_name hpr with ⟨b, hbu, hbn⟩
      have hb2 := List.mem_filter.mp hbu
      have : b.aid ∈ matchedIds artists folders :=
        hmatched b hb2.1 (by rw [← hbn, hpr1, hname])
      have hnot := hb2.2
      simp only [decide_eq_true_eq] at hnot
      exact hnot this

/-- C5 witness: one artist whose slug matches the single folder. -/
theorem exact_match_priority_witness :
    (⟨1, "abba".toList⟩ : Artist) ∈ [(⟨1, "abba".toList⟩ : Artist)] ∧
    (∃ slug ∈ artistSlugs ⟨1, "abba".toList⟩, slug ∈ ["abba".toList]) ∧
    (1 : Nat) ∈ matchedIds [⟨1, "abba".toList⟩] ["abba".toList] := by
  refine ⟨by simp, by decide, ?_⟩
  exact (exact_match_priority [⟨1, "abba".toList⟩] ["abba".toList] 1
    ⟨1, "abba".toList⟩ (by simp) (by decide)).1

/-- C9: raising the threshold never increases the total number of
candidate matches returned by `find_potential_matches`. -/
theorem threshold_monotonic (artists : List Artist) (folders : List Str)
    (t1 t2 : ℚ) (ht : t1 ≤ t2) :
    ((find_potential_matches artists folders t2).map
      (fun fc => fc.2.length)).sum ≤
    ((find_potential_matches artists folders t1).map
      (fun fc => fc.2.length)).sum := by
  unfold find_potential_matches
  generalize unmatchedArtists artists folders = unm
  suffices h : ∀ os : List Str,
      ((os.filterMap fun folder =>
          let ms := folderCandidates unm folder t2
          if ms = [] then none
          else some (folder, sortDesc (uniqueMax ms))).map
        (fun fc => fc.2.length)).sum ≤
      ((os.filterMap fun folder =>
          let ms := folderCandidates unm folder t1
          if ms = [] then none
          else some (folder, sortDesc (uniqueMax ms))).map
        (fun fc => fc.2.length)).sum from h _
  intro os
  induction os with
  | nil => simp
  | cons folder rest ih =>
    by_cases h2 : folderCandidates unm folder t2 = []
    · by_cases h1 : folderCandidates unm folder t1 = []
      · simpa [List.filterMap_cons, h2, h1] using ih
      · have hstep := le_trans ih (Nat.le_add_left _
          (sortDesc (uniqueMax (folderCandidates unm folder t1))).length)
        simpa [List.filterMap_cons, h2, h1] using hstep
    · have h1 : folderCandidates unm folder t1 ≠ [] := by
        intro he
        rcases List.exists_mem_of_ne_nil _ h2 with ⟨x, hx⟩
        have hx1 := folderCandidates_mono ht hx
        rw [he] at hx1
        exact absurd hx1 (by simp)
      have hlen : (sortDesc (uniqueMax (folderCandidates unm folder t2))).length ≤
          (sortDesc (uniqueMax (folderCandidates unm folder t1))).length := by
        rw [length_sortDesc, length_uniqueMax, length_sortDesc, length_uniqueMax]
        refine Finset.card_le_card ?_
        intro x hx
        simp only [List.mem_toFinset, List.mem_map] at hx ⊢
        rcases hx with ⟨pr, hpr, hpr2⟩
        exact ⟨pr, folderCandidates_mono ht hpr, hpr2⟩
      have hcomb := Nat.add_le_add hlen ih
      simpa [List.filterMap_cons, h2, h1] using hcomb

/-- C9 witness: one artist and one dissimilar folder; the candidate list
is nonempty at threshold 0 and empty at threshold 1. -/
theorem threshold_monotonic_witness :
    (0 : ℚ) ≤ 1 ∧
    ((find_potential_matches [⟨1, "ab".toList⟩] ["xy".toList] 1).map
      (fun fc => fc.2.length)).sum ≤
    ((find_potential_matches [⟨1, "ab".toList⟩] ["xy".toList] 0).map
      (fun fc => fc.2.length)).sum :=
  ⟨by norm_num,
    threshold_monotonic [⟨1, "ab".toList⟩] ["xy".toList] 0 1 (by norm_num)⟩

/-! ## The checker partition (C10) -/



theorem check_entity_step (base : List Str) (st : CheckerState) (name : Str)
    (eid : Option Str) :
    ((check_entity base st name eid).1.changes_needed.length +
        (check_entity base st name eid).1.conflicts.length +
        (check_entity base st name eid).1.already_correct.length +
        (check_entity base st name eid).1.missing_folders.length =
      st.changes_needed.length + st.conflicts.length +
        st.already_correct.length + st.missing_folders.length + 1) ∧
    (∀ r ∈ (check_entity base st name eid).1.changes_needed,
        r ∈ st.changes_needed ∨ r.status = "needs_change".toList) ∧
    (∀ r ∈ (check_entity base st name eid).1.conflicts,
        r ∈ st.conflicts ∨ r.status = "conflict".toList) ∧
    (∀ r ∈ (check_entity base st name eid).1.already_correct,
        r ∈ st.already_correct ∨ r.status = "correct".toList) ∧
    (∀ r ∈ (check_entity base st name eid).1.missing_folders,
        r ∈ st.missing_folders ∨ r.status = "missing".toList) := by
  unfold check_entity
  rcases hf : find_existing_folder base name eid with _ | ex
  · simp only [hf]
    refine ⟨by simp; omega, ?_, ?_, ?_, ?_⟩ <;>
      (intro r hr
       first
       | exact Or.inl hr
       | · rcases List.mem_append.mp hr with hr | hr
           · exact Or.inl hr
           · exact Or.inr (by simp at hr; simp [hr]))
  · simp only [hf]
    split_ifs with h1 h2 <;>
      refine ⟨by simp; omega, ?_, ?_, ?_, ?_⟩ <;>
        (intro r hr
         first
         | exact Or.inl hr
         | · rcases List.mem_append.mp hr with hr | hr
             · exact Or.inl hr
             · exact Or.inr (by simp at hr; simp [hr]))

theorem processEntities_aux (base : List Str) :
    ∀ (entities : List (Str × Option Str)) (st : CheckerState),
      ((entities.foldl (fun st e => (check_entity base st e.1 e.2).1) st
            ).changes_needed.length +
          (entities.foldl (fun st e => (check_entity base st e.1 e.2).1) st
            ).conflicts.length +
          (entities.foldl (fun st e => (check_entity base st e.1 e.2).1) st
            ).already_correct.length +
          (entities.foldl (fun st e => (check_entity base st e.1 e.2).1) st
            ).missing_folders.length =
        st.changes_needed.length + st.conflicts.length +
          st.already_correct.length + st.missing_folders.length +
            entities.length) ∧
      (∀ r ∈ (entities.foldl (fun st e => (check_entity base st e.1 e.2).1) st
          ).changes_needed,
        r ∈ st.changes_needed ∨ r.status = "needs_change".toList) ∧
      (∀ r ∈ (entities.foldl (fun st e => (check_entity base st e.1 e.2).1) st
          ).conflicts,
        r ∈ st.conflicts ∨ r.status = "conflict".toList) ∧
      (∀ r ∈ (entities.foldl (fun st e => (check_entity base st e.1 e.2).1) st
          ).already_correct,
        r ∈ st.already_correct ∨ r.status = "correct".toList) ∧
      (∀ r ∈ (entities.foldl (fun st e => (check_entity base st e.1 e.2).1) st
          ).missing_folders,
        r ∈ st.missing_folders ∨ r.status = "missing".toList) := by
  intro entities
  induction entities with
  | nil =>
    intro st
    exact ⟨by simp, fun r hr => Or.inl hr, fun r hr => Or.inl hr,
      fun r hr => Or.inl hr, fun r hr => Or.inl hr⟩
  | cons e rest ih =>
    intro st
    have hstep := check_entity_step base st e.1 e.2
    have hrest := ih (check_entity base st e.1 e.2).1
    simp only [List.foldl_cons]
    refine ⟨by rw [hrest.1, hstep.1]; simp [Nat.add_assoc, Nat.add_comm,
      Nat.add_left_comm], ?_, ?_, ?_, ?_⟩
    · intro r hr
      rcases hrest.2.1 r hr with hr2 | hr2
      · exact hstep.2.1 r hr2
      · exact Or.inr hr2
    · intro r hr
      rcases hrest.2.2.1 r hr with hr2 | hr2
      · exact hstep.2.2.1 r hr2
      · exact Or.inr hr2
    · intro r hr
      rcases hrest.2.2.2.1 r hr with hr2 | hr2
      · exact hstep.2.2.2.1 r hr2
      · exact Or.inr hr2
    · intro r hr
      rcases hrest.2.2.2.2 r hr with hr2 | hr2
      · exact hstep.2.2.2.2 r hr2
      · exact Or.inr hr2

/-- C10: every checked entity receives exactly one final status from the
closed set (the `unknown` placeholder never survives), its record lands
in exactly one accumulator list, and after any run the four lists
partition the checked entities: their lengths sum to the number of
checked entities and every stored record carries the status of its
list. -/
theorem checker_partition (base : List Str)
    (entities : List (Str × Option Str)) :
    ((processEntities base entities).changes_needed.length +
        (processEntities base entities).conflicts.length +
        (processEntities base entities).already_correct.length +
        (processEntities base entities).missing_folders.length =
      entities.length) ∧
    (∀ r ∈ (processEntities base entities).changes_needed,
      r.status = "needs_change".toList) ∧
    (∀ r ∈ (processEntities base entities).conflicts,
      r.status = "conflict".toList) ∧
    (∀ r ∈ (processEntities base entities).already_correct,
      r.status = "correct".toList) ∧
    (∀ r ∈ (processEntities base entities).missing_folders,
      r.status = "missing".toList) ∧
    (∀ st name eid, (check_entity base st name eid).2.status ∈
      ["needs_change".toList, "conflict".toList, "correct".toList,
        "missing".toList] ∧
      (check_entity base st name eid).2.status ≠ "unknown".toList) := by
  have h := processEntities_aux base entities ⟨[], [], [], []⟩
  refine ⟨by simpa using h.1, ?_, ?_, ?_, ?_, ?_⟩
  · intro r hr
    rcases h.2.1 r hr with hr2 | hr2
    · exact absurd hr2 (by simp)
    · exact hr2
  · intro r hr
    rcases h.2.2.1 r hr with hr2 | hr2
    · exact absurd hr2 (by simp)
    · exact hr2
  · intro r hr
    rcases h.2.2.2.1 r hr with hr2 | hr2
    · exact absurd hr2 (by simp)
    · exact hr2
  · intro r hr
    rcases h.2.2.2.2 r hr with hr2 | hr2
    · exact absurd hr2 (by simp)
    · exact hr2
  · intro st name eid
    unfold check_entity
    rcases hf : find_existing_folder base name eid with _ | ex
    · simp only [hf]
      simp
    · simp only [hf]
      split_ifs with h1 h2 <;> simp

/-! ## SequenceMatcher: window bounds and block matching (C6) -/

theorem mem_positionsOf {b : Str} {c : Char} {j : Nat} :
    j ∈ positionsOf b c ↔ j < b.length ∧ b.getD j ' ' = c := by
  unfold positionsOf
  simp [List.mem_filter, List.mem_range]

theorem b2jIdx_pairwise (b : Str) (c : Char) :
    (b2jIdx b c).Pairwise (· < ·) := by
  unfold b2jIdx
  split
  · simp
  · exact (List.pairwise_lt_range b.length).filter _

theorem mem_b2jIdx {b : Str} {c : Char} {j : Nat} (h : j ∈ b2jIdx b c) :
    j < b.length ∧ b.getD j ' ' = c := by
  unfold b2jIdx at h
  split at h
  · exact absurd h (by simp)
  · exact mem_positionsOf.mp h

theorem b2jIdx_eq_nil_of_not_mem {b : Str} {c : Char} (h : c ∉ b) :
    b2jIdx b c = [] := by
  unfold b2jIdx
  split
  · rfl
  · unfold positionsOf
    rw [List.filter_eq_nil]
    intro j hj
    have hjl := List.mem_range.mp hj
    rw [List.getD_eq_getElem b ' ' hjl]
    simp only [decide_eq_true_eq]
    intro he
    exact h (he ▸ List.getElem_mem hjl)

theorem innerLoop_spec {a b : Str} {alo blo bhi ahi i : Nat}
    (hi1 : alo ≤ i) (hi2 : i < ahi) {old : Nat → Nat}
    (hold : ∀ j, old j ≠ 0 → blo ≤ j ∧ j < bhi ∧ old j + blo ≤ j + 1 ∧
      old j + alo ≤ i ∧
      ∀ t, t < old j → a.getD (i - 1 - t) ' ' = b.getD (j - t) ' ') :
    ∀ (js : List Nat) (nj : Nat → Nat) (best : Best),
      (∀ j ∈ js, b.getD j ' ' = a.getD i ' ') →
      (∀ j, nj j ≠ 0 → blo ≤ j ∧ j < bhi ∧ nj j + blo ≤ j + 1 ∧
        nj j + alo ≤ i + 1 ∧
        ∀ t, t < nj j → a.getD (i - t) ' ' = b.getD (j - t) ' ') →
      BestOk best alo ahi blo bhi →
      (∀ t, t < best.bsize →
        a.getD (best.bi + t) ' ' = b.getD (best.bj + t) ' ') →
      (∀ j, (innerLoop old blo bhi i js nj best).1 j ≠ 0 →
        blo ≤ j ∧ j < bhi ∧
        (innerLoop old blo bhi i js nj best).1 j + blo ≤ j + 1 ∧
        (innerLoop old blo bhi i js nj best).1 j + alo ≤ i + 1 ∧
        ∀ t, t < (innerLoop old blo bhi i js nj best).1 j →
          a.getD (i - t) ' ' = b.getD (j - t) ' ') ∧
      BestOk (innerLoop old blo bhi i js nj best).2 alo ahi blo bhi ∧
      (∀ t, t < (innerLoop old blo bhi i js nj best).2.bsize →
        a.getD ((innerLoop old blo bhi i js nj best).2.bi + t) ' ' =
          b.getD ((innerLoop old blo bhi i js nj best).2.bj + t) ' ') := by
  intro js
  induction js with
  | nil =>
    intro nj best hjs hnj hbo hbm
    rw [innerLoop]
    exact ⟨hnj, hbo, hbm⟩
  | cons j js ih =>
    intro nj best hjs hnj hbo hbm
    rw [innerLoop]
    by_cases hjlo : j < blo
    · rw [if_pos hjlo]
      exact ih nj best (fun q hq => hjs q (List.mem_cons_of_mem _ hq)) hnj
        hbo hbm
    rw [if_neg hjlo]
    by_cases hjhi : bhi ≤ j
    · rw [if_pos hjhi]
      exact ⟨hnj, hbo, hbm⟩
    rw [if_neg hjhi]
    simp only []
    have hblo : blo ≤ j := Nat.le_of_not_lt hjlo
    have hbhi : j < bhi := Nat.lt_of_not_le hjhi
    have hbj : b.getD j ' ' = a.getD i ' ' := hjs j (by simp)
    set k := (if j = 0 then 0 else old (j - 1)) + 1 with hk
    have hkprop : k + blo ≤ j + 1 ∧ k + alo ≤ i + 1 ∧
        ∀ t, t < k → a.getD (i - t) ' ' = b.getD (j - t) ' ' := by
      by_cases hj0 : j = 0
      · subst hj0
        have hkv : k = 1 := by rw [hk, if_pos rfl]
        refine ⟨by omega, by omega, ?_⟩
        intro t ht
        rw [hkv] at ht
        interval_cases t
        simpa using hbj.symm
      · rw [hk, if_neg hj0]
        by_cases hz : old (j - 1) = 0
        · rw [hz]
          refine ⟨by omega, by omega, ?_⟩
          intro t ht
          simp only [Nat.zero_add, Nat.lt_one_iff] at ht
          subst ht
          simpa using hbj.symm
        · rcases hold (j - 1) hz with ⟨hc1, hc2, hc3, hc4, hc5⟩
          refine ⟨by omega, by omega, ?_⟩
          intro t ht
          rcases Nat.eq_zero_or_pos t with ht0 | htp
          · subst ht0
            simpa using hbj.symm
          · have h5 := hc5 (t - 1) (by omega)
            have e1 : i - 1 - (t - 1) = i - t := by omega
            have e2 : j - 1 - (t - 1) = j - t := by omega
            rw [e1, e2] at h5
            exact h5
    have hnj2 : ∀ q, (fun x => if x = j then k else nj x) q ≠ 0 →
        blo ≤ q ∧ q < bhi ∧
        (fun x => if x = j then k else nj x) q + blo ≤ q + 1 ∧
        (fun x => if x = j then k else nj x) q + alo ≤ i + 1 ∧
        ∀ t, t < (fun x => if x = j then k else nj x) q →
          a.getD (i - t) ' ' = b.getD (q - t) ' ' := by
      intro q hq
      by_cases hqj : q = j
      · subst hqj
        simp only [if_pos rfl] at hq ⊢
        exact ⟨hblo, hbhi, hkprop.1, hkprop.2.1, hkprop.2.2⟩
      · simp only [if_neg hqj] at hq ⊢
        exact hnj q hq
    by_cases hbk : best.bsize < k
    · rw [if_pos hbk]
      have hknz : k ≥ 1 := by rw [hk]; omega
      have hbo2 : BestOk ⟨i + 1 - k, j + 1 - k, k⟩ alo ahi blo bhi := by
        rcases hkprop with ⟨hp1, hp2, _⟩
        refine ⟨?_, ?_, ?_, ?_⟩ <;> simp only [] <;> omega
      have hbm2 : ∀ t, t < (⟨i + 1 - k, j + 1 - k, k⟩ : Best).bsize →
          a.getD ((⟨i + 1 - k, j + 1 - k, k⟩ : Best).bi + t) ' ' =
            b.getD ((⟨i + 1 - k, j + 1 - k, k⟩ : Best).bj + t) ' ' := by
        intro t ht
        simp only at ht ⊢
        have h5 := hkprop.2.2 (k - 1 - t) (by omega)
        have e1 : i - (k - 1 - t) = i + 1 - k + t := by
          rcases hkprop with ⟨hp1, hp2, _⟩
          omega
        have e2 : j - (k - 1 - t) = j + 1 - k + t := by
          rcases hkprop with ⟨hp1, hp2, _⟩
          omega
        rw [e1, e2] at h5
        exact h5
      exact ih _ _ (fun q hq => hjs q (List.mem_cons_of_mem _ hq)) hnj2
        hbo2 hbm2
    · rw [if_neg hbk]
      exact ih _ _ (fun q hq => hjs q (List.mem_cons_of_mem _ hq)) hnj2
        hbo hbm

theorem dpRows_spec {a b : Str} {bj : Char → List Nat}
    (hbj : ∀ c j, j ∈ bj c → b.getD j ' ' = c) {alo blo bhi ahi : Nat} :
    ∀ (fuel i : Nat) (old : Nat → Nat) (best : Best),
      i + fuel = ahi → alo ≤ i →
      (∀ j, old j ≠ 0 → blo ≤ j ∧ j < bhi ∧ old j + blo ≤ j + 1 ∧
        old j + alo ≤ i ∧
        ∀ t, t < old j → a.getD (i - 1 - t) ' ' = b.getD (j - t) ' ') →
      BestOk best alo ahi blo bhi →
      (∀ t, t < best.bsize →
        a.getD (best.bi + t) ' ' = b.getD (best.bj + t) ' ') →
      BestOk (dpRows a bj blo bhi fuel i old best) alo ahi blo bhi ∧
      ∀ t, t < (dpRows a bj blo bhi fuel i old best).bsize →
        a.getD ((dpRows a bj blo bhi fuel i old best).bi + t) ' ' =
          b.getD ((dpRows a bj blo bhi fuel i old best).bj + t) ' ' := by
  intro fuel
  induction fuel with
  | zero =>
    intro i old best hfuel hi hold hbo hbm
    rw [dpRows]
    exact ⟨hbo, hbm⟩
  | succ fuel ih =>
    intro i old best hfuel hi hold hbo hbm
    rw [dpRows]
    have hspec := innerLoop_spec hi (by omega) hold (bj (a.getD i ' '))
      (fun _ => 0) best (fun j hj => hbj _ j hj)
      (fun j hj => absurd rfl hj) hbo hbm
    refine ih (i + 1) _ _ (by omega) (by omega) ?_ hspec.2.1 hspec.2.2
    intro j hj
    obtain ⟨h1, h2, h3, h4, h5⟩ := hspec.1 j hj
    refine ⟨h1, h2, h3, h4, ?_⟩
    intro t ht
    have h6 := h5 t ht
    simpa using h6

theorem extendBack_spec {a b : Str} {alo ahi blo bhi : Nat} :
    ∀ (fuel : Nat) (best : Best), BestOk best alo ahi blo bhi →
      (∀ t, t < best.bsize →
        a.getD (best.bi + t) ' ' = b.getD (best.bj + t) ' ') →
      BestOk (extendBack a b alo blo fuel best) alo ahi blo bhi ∧
      ∀ t, t < (extendBack a b alo blo fuel best).bsize →
        a.getD ((extendBack a b alo blo fuel best).bi + t) ' ' =
          b.getD ((extendBack a b alo blo fuel best).bj + t) ' ' := by
  intro fuel
  induction fuel with
  | zero =>
    intro best hbo hbm
    rw [extendBack]
    exact ⟨hbo, hbm⟩
  | succ fuel ih =>
    intro best hbo hbm
    rw [extendBack]
    split_ifs with hc
    · obtain ⟨hc1, hc2, hc3⟩ := hc
      obtain ⟨h1, h2, h3, h4⟩ := hbo
      refine ih _ ?_ ?_
      · refine ⟨?_, ?_, ?_, ?_⟩ <;> simp only [] <;> omega
      · intro t ht
        simp only [] at ht ⊢
        rcases Nat.eq_zero_or_pos t with h0 | hp
        · subst h0
          simpa using hc3
        · have h5 := hbm (t - 1) (by omega)
          have e1 : best.bi - 1 + t = best.bi + (t - 1) := by omega
          have e2 : best.bj - 1 + t = best.bj + (t - 1) := by omega
          rw [e1, e2]
          exact h5
    · exact ⟨hbo, hbm⟩

theorem extendFwd_spec {a b : Str} {alo ahi blo bhi : Nat} :
    ∀ (fuel : Nat) (best : Best), BestOk best alo ahi blo bhi →
      (∀ t, t < best.bsize →
        a.getD (best.bi + t) ' ' = b.getD (best.bj + t) ' ') →
      BestOk (extendFwd a b ahi bhi fuel best) alo ahi blo bhi ∧
      ∀ t, t < (extendFwd a b ahi bhi fuel best).bsize →
        a.getD ((extendFwd a b ahi bhi fuel best).bi + t) ' ' =
          b.getD ((extendFwd a b ahi bhi fuel best).bj + t) ' ' := by
  intro fuel
  induction fuel with
  | zero =>
    intro best hbo hbm
    rw [extendFwd]
    exact ⟨hbo, hbm⟩
  | succ fuel ih =>
    intro best hbo hbm
    rw [extendFwd]
    split_ifs with hc
    · obtain ⟨hc1, hc2, hc3⟩ := hc
      obtain ⟨h1, h2, h3, h4⟩ := hbo
      refine ih _ ?_ ?_
      · refine ⟨?_, ?_, ?_, ?_⟩ <;> simp only [] <;> omega
      · intro t ht
        simp only [] at ht ⊢
        rcases Nat.lt_or_ge t best.bsize with hlt | hge
        · exact hbm t hlt
        · have ht2 : t = best.bsize := by omega
          subst ht2
          exact hc3
    · exact ⟨hbo, hbm⟩

theorem flm_spec {a b : Str} {bj : Char → List Nat}
    (hbj : ∀ c j, j ∈ bj c → b.getD j ' ' = c)
    {alo ahi blo bhi : Nat} (h1 : alo ≤ ahi) (h2 : blo ≤ bhi) :
    BestOk (find_longest_match a b bj alo ahi blo bhi) alo ahi blo bhi ∧
    ∀ t, t < (find_longest_match a b bj alo ahi blo bhi).bsize →
      a.getD ((find_longest_match a b bj alo ahi blo bhi).bi + t) ' ' =
        b.getD ((find_longest_match a b bj alo ahi blo bhi).bj + t) ' ' := by
  rw [find_longest_match]
  have hd := @dpRows_spec a b bj hbj alo blo bhi ahi (ahi - alo) alo
    (fun _ => 0) ⟨alo, blo, 0⟩
    (show alo + (ahi - alo) = ahi by omega) (le_refl alo)
    (fun j hj => absurd rfl hj)
    ⟨le_refl alo, by show alo + 0 ≤ ahi; omega, le_refl blo,
      by show blo + 0 ≤ bhi; omega⟩
    (fun t ht => absurd ht (Nat.not_lt_zero t))
  set d := dpRows a bj blo bhi (ahi - alo) alo (fun _ => 0) ⟨alo, blo, 0⟩
    with hdd
  have hb := extendBack_spec d.bi d hd.1 hd.2
  set d2 := extendBack a b alo blo d.bi d with hd2
  exact extendFwd_spec (ahi - (d2.bi + d2.bsize)) d2 hb.1 hb.2

theorem matchTotal_le {a b : Str} {bj : Char → List Nat}
    (hbj : ∀ c j, j ∈ bj c → b.getD j ' ' = c) :
    ∀ (fuel alo ahi blo bhi : Nat), alo ≤ ahi → blo ≤ bhi →
      matchTotal a b bj fuel alo ahi blo bhi ≤ ahi - alo ∧
      matchTotal a b bj fuel alo ahi blo bhi ≤ bhi - blo := by
  intro fuel
  induction fuel with
  | zero =>
    intro alo ahi blo bhi h1 h2
    rw [matchTotal]
    omega
  | succ fuel ih =>
    intro alo ahi blo bhi h1 h2
    rw [matchTotal]
    obtain ⟨hb1, hb2, hb3, hb4⟩ := (flm_spec hbj h1 h2).1
    set m := find_longest_match a b bj alo ahi blo bhi with hm
    by_cases hz : m.bsize = 0
    · rw [if_pos hz]
      omega
    rw [if_neg hz]
    by_cases hL : alo < m.bi ∧ blo < m.bj
    · rw [if_pos hL]
      have hIL := ih alo m.bi blo m.bj (by omega) (by omega)
      by_cases hR : m.bi + m.bsize < ahi ∧ m.bj + m.bsize < bhi
      · rw [if_pos hR]
        have hIR := ih (m.bi + m.bsize) ahi (m.bj + m.bsize) bhi
          (by omega) (by omega)
        omega
      · rw [if_neg hR]
        omega
    · rw [if_neg hL]
      by_cases hR : m.bi + m.bsize < ahi ∧ m.bj + m.bsize < bhi
      · rw [if_pos hR]
        have hIR := ih (m.bi + m.bsize) ahi (m.bj + m.bsize) bhi
          (by omega) (by omega)
        omega
      · rw [if_neg hR]
        omega

/-- When the total matched size exhausts both windows, the two windows
are pointwise equal. -/
theorem matchTotal_full {a b : Str} {bj : Char → List Nat}
    (hbj : ∀ c j, j ∈ bj c → b.getD j ' ' = c) :
    ∀ (fuel alo ahi blo bhi : Nat), alo ≤ ahi → blo ≤ bhi →
      matchTotal a b bj fuel alo ahi blo bhi = ahi - alo →
      matchTotal a b bj fuel alo ahi blo bhi = bhi - blo →
      ∀ t, t < ahi - alo → a.getD (alo + t) ' ' = b.getD (blo + t) ' ' := by
  intro fuel
  induction fuel with
  | zero =>
    intro alo ahi blo bhi h1 h2 ha hb t ht
    rw [matchTotal] at ha
    omega
  | succ fuel ih =>
    intro alo ahi blo bhi h1 h2 ha hb t ht
    rw [matchTotal] at ha hb
    obtain ⟨⟨hb1, hb2, hb3, hb4⟩, hmatch⟩ := flm_spec hbj h1 h2
    set m := find_longest_match a b bj alo ahi blo bhi with hm
    by_cases hz : m.bsize = 0
    · rw [if_pos hz] at ha
      omega
    rw [if_neg hz] at ha hb
    have hLbound :
        (if alo < m.bi ∧ blo < m.bj then
          matchTotal a b bj fuel alo m.bi blo m.bj else 0) ≤ m.bi - alo ∧
        (if alo < m.bi ∧ blo < m.bj then
          matchTotal a b bj fuel alo m.bi blo m.bj else 0) ≤ m.bj - blo := by
      split_ifs with h
      · exact matchTotal_le hbj fuel alo m.bi blo m.bj (by omega) (by omega)
      · omega
    have hRbound :
        (if m.bi + m.bsize < ahi ∧ m.bj + m.bsize < bhi then
          matchTotal a b bj fuel (m.bi + m.bsize) ahi (m.bj + m.bsize) bhi
        else 0) ≤ ahi - (m.bi + m.bsize) ∧
        (if m.bi + m.bsize < ahi ∧ m.bj + m.bsize < bhi then
          matchTotal a b bj fuel (m.bi + m.bsize) ahi (m.bj + m.bsize) bhi
        else 0) ≤ bhi - (m.bj + m.bsize) := by
      split_ifs with h
      · exact matchTotal_le hbj fuel (m.bi + m.bsize) ahi (m.bj + m.bsize)
          bhi (by omega) (by omega)
      · omega
    have hLeq :
        (if alo < m.bi ∧ blo < m.bj then
          matchTotal a b bj fuel alo m.bi blo m.bj else 0) = m.bi - alo ∧
        (if alo < m.bi ∧ blo < m.bj then
          matchTotal a b bj fuel alo m.bi blo m.bj else 0) = m.bj - blo ∧
        (if m.bi + m.bsize < ahi ∧ m.bj + m.bsize < bhi then
          matchTotal a b bj fuel (m.bi + m.bsize) ahi (m.bj + m.bsize) bhi
        else 0) = ahi - (m.bi + m.bsize) ∧
        (if m.bi + m.bsize < ahi ∧ m.bj + m.bsize < bhi then
          matchTotal a b bj fuel (m.bi + m.bsize) ahi (m.bj + m.bsize) bhi
        else 0) = bhi - (m.bj + m.bsize) := by
      omega
    have hoff : m.bi - alo = m.bj - blo := by omega
    have hleft : ∀ u, u < m.bi - alo →
        a.getD (alo + u) ' ' = b.getD (blo + u) ' ' := by
      by_cases hL : alo < m.bi ∧ blo < m.bj
      · rw [if_pos hL] at hLeq
        exact ih alo m.bi blo m.bj (by omega) (by omega) hLeq.1 hLeq.2.1
      · intro u hu
        exfalso
        rw [if_neg hL] at hLeq
        omega
    have hright : ∀ u, u < ahi - (m.bi + m.bsize) →
        a.getD (m.bi + m.bsize + u) ' ' = b.getD (m.bj + m.bsize + u) ' ' := by
      by_cases hR : m.bi + m.bsize < ahi ∧ m.bj + m.bsize < bhi
      · rw [if_pos hR] at hLeq
        exact ih (m.bi + m.bsize) ahi (m.bj + m.bsize) bhi (by omega)
          (by omega) hLeq.2.2.1 hLeq.2.2.2
      · intro u hu
        exfalso
        rw [if_neg hR] at hLeq
        omega
    rcases Nat.lt_or_ge t (m.bi - alo) with hreg | hreg
    · exact hleft t hreg
    rcases Nat.lt_or_ge t (m.bi - alo + m.bsize) with hreg2 | hreg2
    · have e1 : alo + t = m.bi + (t - (m.bi - alo)) := by omega
      have e2 : blo + t = m.bj + (t - (m.bi - alo)) := by omega
      rw [e1, e2]
      exact hmatch _ (by omega)
    · have e1 : alo + t = m.bi + m.bsize + (t - (m.bi - alo) - m.bsize) := by
        omega
      have e2 : blo + t = m.bj + m.bsize + (t - (m.bi - alo) - m.bsize) := by
        omega
      rw [e1, e2]
      exact hright _ (by omega)

/-- A non-popular position has a positive chain value. -/
theorem diagChain_pos {s : Str} {j : Nat}
    (h : isPopular s (s.getD j ' ') = false) : 1 ≤ diagChain s j := by
  cases j with
  | zero =>
    rw [diagChain, h]
    simp
  | succ n =>
    rw [diagChain, h]
    simp

/-- The chain value of a non-popular position extends its predecessor. -/
theorem diagChain_succ {s : Str} {j : Nat} (hj : 1 ≤ j)
    (h : isPopular s (s.getD j ' ') = false) :
    diagChain s j = diagChain s (j - 1) + 1 := by
  obtain ⟨n, rfl⟩ : ∃ n, j = n + 1 := ⟨j - 1, by omega⟩
  rw [diagChain, h]
  simp

/-- On a self-comparison the strictly-greater tie-break keeps the best
block on the diagonal: processing one row of the dynamic program with a
diagonal best block yields a diagonal best block, and after the row the
best size dominates every window-clipped chain value up to the row. -/
theorem innerLoop_diag {s : Str} {lo hi i : Nat} (hl : lo ≤ i) (hh : i < hi)
    (hnp : isPopular s (s.getD i ' ') = false)
    {old : Nat → Nat}
    (hold : ∀ j, old j ≠ 0 → lo ≤ j ∧
      old j ≤ min (diagChain s j) (j + 1 - lo) ∧
      old j ≤ min (diagChain s (i - 1)) (i - lo))
    (holdd : lo < i → old (i - 1) = min (diagChain s (i - 1)) (i - lo)) :
    ∀ (js : List Nat) (nj : Nat → Nat) (best : Best),
      js.Pairwise (fun x y => x < y) →
      (∀ j ∈ js, s.getD j ' ' = s.getD i ' ') →
      (∀ q, nj q ≠ 0 → lo ≤ q ∧ nj q ≤ min (diagChain s q) (q + 1 - lo) ∧
        nj q ≤ min (diagChain s i) (i + 1 - lo)) →
      best.bi = best.bj → BestOk best lo hi lo hi →
      (∀ q, lo ≤ q → q < i →
        min (diagChain s q) (q + 1 - lo) ≤ best.bsize) →
      ((i ∈ js ∧ nj i = 0) ∨
        (nj i = min (diagChain s i) (i + 1 - lo) ∧
          min (diagChain s i) (i + 1 - lo) ≤ best.bsize)) →
      (∀ q, (innerLoop old lo hi i js nj best).1 q ≠ 0 → lo ≤ q ∧
        (innerLoop old lo hi i js nj best).1 q ≤
          min (diagChain s q) (q + 1 - lo) ∧
        (innerLoop old lo hi i js nj best).1 q ≤
          min (diagChain s i) (i + 1 - lo)) ∧
      (innerLoop old lo hi i js nj best).1 i =
        min (diagChain s i) (i + 1 - lo) ∧
      (innerLoop old lo hi i js nj best).2.bi =
        (innerLoop old lo hi i js nj best).2.bj ∧
      BestOk (innerLoop old lo hi i js nj best).2 lo hi lo hi ∧
      ∀ q, lo ≤ q → q < i + 1 →
        min (diagChain s q) (q + 1 - lo) ≤
          (innerLoop old lo hi i js nj best).2.bsize := by
  intro js
  induction js with
  | nil =>
    intro nj best hp hjs hnj hbd hbo hB hst
    rw [innerLoop]
    rcases hst with ⟨hmem, -⟩ | ⟨h1, h2⟩
    · exact absurd hmem (List.not_mem_nil i)
    refine ⟨hnj, h1, hbd, hbo, ?_⟩
    intro q hq1 hq2
    rcases Nat.lt_or_ge q i with h | h
    · exact hB q hq1 h
    · have hqi : q = i := by omega
      subst hqi
      exact h2
  | cons j js ih =>
    intro nj best hp hjs hnj hbd hbo hB hst
    rw [innerLoop]
    have hptail := (List.pairwise_cons.mp hp).2
    have hpall := (List.pairwise_cons.mp hp).1
    by_cases hjlo : j < lo
    · rw [if_pos hjlo]
      refine ih nj best hptail (fun q hq => hjs q (List.mem_cons_of_mem _ hq))
        hnj hbd hbo hB ?_
      rcases hst with ⟨hmem, hz⟩ | hr
      · left
        refine ⟨?_, hz⟩
        rcases List.mem_cons.mp hmem with he | he
        · omega
        · exact he
      · right
        exact hr
    rw [if_neg hjlo]
    by_cases hjhi : hi ≤ j
    · rw [if_pos hjhi]
      rcases hst with ⟨hmem, -⟩ | ⟨h1, h2⟩
      · exfalso
        rcases List.mem_cons.mp hmem with he | he
        · omega
        · have h3 := hpall i he
          omega
      refine ⟨hnj, h1, hbd, hbo, ?_⟩
      intro q hq1 hq2
      rcases Nat.lt_or_ge q i with h | h
      · exact hB q hq1 h
      · have hqi : q = i := by omega
        subst hqi
        exact h2
    rw [if_neg hjhi]
    simp only []
    have hblo : lo ≤ j := Nat.le_of_not_lt hjlo
    have hbhi : j < hi := Nat.lt_of_not_le hjhi
    have hjc : s.getD j ' ' = s.getD i ' ' := hjs j (List.mem_cons_self j js)
    have hjnp : isPopular s (s.getD j ' ') = false := by rw [hjc]; exact hnp
    set k := (if j = 0 then 0 else old (j - 1)) + 1 with hk
    have hdposj : 1 ≤ diagChain s j := diagChain_pos hjnp
    have hdposi : 1 ≤ diagChain s i := diagChain_pos hnp
    have hkb : k ≤ min (diagChain s j) (j + 1 - lo) := by
      by_cases hj0 : j = 0
      · subst hj0
        rw [hk, if_pos rfl]
        omega
      rw [hk, if_neg hj0]
      by_cases hz : old (j - 1) = 0
      · rw [hz]
        omega
      · obtain ⟨hc1, hc2, hc3⟩ := hold (j - 1) hz
        have hstep : diagChain s j = diagChain s (j - 1) + 1 :=
          diagChain_succ (by omega) hjnp
        have e : j - 1 + 1 = j := by omega
        rw [e] at hc2
        omega
    have hka : k ≤ min (diagChain s i) (i + 1 - lo) := by
      by_cases hj0 : j = 0
      · subst hj0
        rw [hk, if_pos rfl]
        omega
      rw [hk, if_neg hj0]
      by_cases hz : old (j - 1) = 0
      · rw [hz]
        omega
      · obtain ⟨hc1, hc2, hc3⟩ := hold (j - 1) hz
        rcases Nat.eq_zero_or_pos i with hi0 | hip
        · exfalso
          rw [hi0] at hc3
          simp at hc3
          omega
        · have hstepi : diagChain s i = diagChain s (i - 1) + 1 :=
            diagChain_succ hip hnp
          omega
    have hnj2 : ∀ q, (fun x => if x = j then k else nj x) q ≠ 0 → lo ≤ q ∧
        (fun x => if x = j then k else nj x) q ≤
          min (diagChain s q) (q + 1 - lo) ∧
        (fun x => if x = j then k else nj x) q ≤
          min (diagChain s i) (i + 1 - lo) := by
      intro q hq
      by_cases hqj : q = j
      · subst hqj
        simp only [if_pos rfl] at hq ⊢
        exact ⟨hblo, hkb, hka⟩
      · simp only [if_neg hqj] at hq ⊢
        exact hnj q hq
    by_cases hji : j = i
    · subst hji
      have hkeq : k = min (diagChain s j) (j + 1 - lo) := by
        refine Nat.le_antisymm hkb ?_
        rcases Nat.eq_zero_or_pos j with hj0 | hjp
        · subst hj0
          rw [hk, if_pos rfl]
          omega
        · rcases Nat.lt_or_ge lo j with hloj | hloj
          · have hde := holdd hloj
            have hstepj : diagChain s j = diagChain s (j - 1) + 1 :=
              diagChain_succ hjp hjnp
            rw [hk, if_neg (by omega)]
            rw [hde]
            omega
          · omega
      by_cases hbk : best.bsize < k
      · rw [if_pos hbk]
        refine ih _ _ hptail
          (fun q hq => hjs q (List.mem_cons_of_mem _ hq)) hnj2 rfl ?_ ?_ ?_
        · refine ⟨?_, ?_, ?_, ?_⟩ <;> simp only [] <;> omega
        · intro q h1 h2
          have h3 := hB q h1 h2
          simp only []
          omega
        · right
          refine ⟨?_, ?_⟩
          · simp only [if_pos rfl]
            exact hkeq
          · simp only []
            omega
      · rw [if_neg hbk]
        refine ih _ _ hptail
          (fun q hq => hjs q (List.mem_cons_of_mem _ hq)) hnj2 hbd hbo hB ?_
        right
        refine ⟨?_, by omega⟩
        simp only [if_pos rfl]
        exact hkeq
    · have hnup : ¬ best.bsize < k := by
        rcases hst with ⟨hmem, -⟩ | ⟨-, h2⟩
        · have hji2 : i ∈ js := by
            rcases List.mem_cons.mp hmem with he | he
            · exact absurd he.symm hji
            · exact he
          have hjlt : j < i := hpall i hji2
          have h3 := hB j hblo hjlt
          omega
        · omega
      rw [if_neg hnup]
      refine ih _ _ hptail
        (fun q hq => hjs q (List.mem_cons_of_mem _ hq)) hnj2 hbd hbo hB ?_
      have hij : i ≠ j := fun h => hji h.symm
      rcases hst with ⟨hmem, hz⟩ | hr
      · left
        refine ⟨?_, ?_⟩
        · rcases List.mem_cons.mp hmem with he | he
          · exact absurd he.symm hji
          · exact he
        · simp only [if_neg hij]
          exact hz
      · right
        refine ⟨?_, hr.2⟩
        simp only [if_neg hij]
        exact hr.1

/-- A popular position has chain value zero. -/
theorem diagChain_pop {s : Str} {j : Nat}
    (h : isPopular s (s.getD j ' ') = true) : diagChain s j = 0 := by
  cases j with
  | zero =>
    rw [diagChain, h]
    simp
  | succ n =>
    rw [diagChain, h]
    simp

/-- On a self-comparison the whole dynamic program keeps the best block
on the diagonal. -/
theorem dpRows_diag {s : Str} {lo hi : Nat} (hhi : hi ≤ s.length) :
    ∀ (fuel i : Nat) (old : Nat → Nat) (best : Best),
      i + fuel = hi → lo ≤ i →
      (∀ j, old j ≠ 0 → lo ≤ j ∧
        old j ≤ min (diagChain s j) (j + 1 - lo) ∧
        old j ≤ min (diagChain s (i - 1)) (i - lo)) →
      (lo < i → old (i - 1) = min (diagChain s (i - 1)) (i - lo)) →
      best.bi = best.bj → BestOk best lo hi lo hi →
      (∀ q, lo ≤ q → q < i →
        min (diagChain s q) (q + 1 - lo) ≤ best.bsize) →
      (dpRows s (b2jIdx s) lo hi fuel i old best).bi =
        (dpRows s (b2jIdx s) lo hi fuel i old best).bj ∧
      BestOk (dpRows s (b2jIdx s) lo hi fuel i old best) lo hi lo hi := by
  intro fuel
  induction fuel with
  | zero =>
    intro i old best hfuel hi2 hold holdd hbd hbo hB
    rw [dpRows]
    exact ⟨hbd, hbo⟩
  | succ fuel ihf =>
    intro i old best hfuel hi2 hold holdd hbd hbo hB
    rw [dpRows]
    by_cases hpop : isPopular s (s.getD i ' ') = true
    · have hjs : b2jIdx s (s.getD i ' ') = [] := by
        rw [b2jIdx, if_pos hpop]
      rw [hjs, innerLoop]
      have hzero : diagChain s i = 0 := diagChain_pop hpop
      refine ihf (i + 1) _ _ (by omega) (by omega) ?_ ?_ hbd hbo ?_
      · intro j hj
        exact absurd rfl hj
      · intro h
        show (0 : Nat) = min (diagChain s (i + 1 - 1)) (i + 1 - lo)
        simp only [Nat.add_sub_cancel]
        omega
      · intro q h1 h2
        rcases Nat.lt_or_ge q i with h3 | h3
        · exact hB q h1 h3
        · have hqi : q = i := by omega
          subst hqi
          omega
    · have hpop2 : isPopular s (s.getD i ' ') = false := by
        revert hpop
        cases isPopular s (s.getD i ' ') <;> simp
      have hjs : b2jIdx s (s.getD i ' ') = positionsOf s (s.getD i ' ') := by
        rw [b2jIdx, if_neg (by rw [hpop2]; simp)]
      rw [hjs]
      have hspec := innerLoop_diag hi2 (by omega) hpop2 hold holdd
        (positionsOf s (s.getD i ' ')) (fun _ => 0) best
        ((List.pairwise_lt_range s.length).filter _)
        (fun j hj => (mem_positionsOf.mp hj).2)
        (fun q hq => absurd rfl hq) hbd hbo hB
        (Or.inl ⟨mem_positionsOf.mpr ⟨by omega, rfl⟩, rfl⟩)
      refine ihf (i + 1) _ _ (by omega) (by omega) ?_ ?_ hspec.2.2.1
        hspec.2.2.2.1 hspec.2.2.2.2
      · intro j hj
        obtain ⟨a1, a2, a3⟩ := hspec.1 j hj
        refine ⟨a1, a2, ?_⟩
        simpa using a3
      · intro h
        simpa using hspec.2.1

/-- On a self-comparison the backward extension drags a diagonal block
all the way down to the window start. -/
theorem extendBack_diag {s : Str} {lo : Nat} :
    ∀ (fuel : Nat) (best : Best), best.bi = best.bj → lo ≤ best.bi →
      best.bi - lo ≤ fuel →
      (extendBack s s lo lo fuel best).bi = lo ∧
      (extendBack s s lo lo fuel best).bj = lo ∧
      (extendBack s s lo lo fuel best).bsize =
        best.bsize + (best.bi - lo) := by
  intro fuel
  induction fuel with
  | zero =>
    intro best hbd hlo hle
    rw [extendBack]
    refine ⟨by omega, by omega, by omega⟩
  | succ fuel ih =>
    intro best hbd hlo hle
    rw [extendBack]
    by_cases hc : lo < best.bi ∧ lo < best.bj ∧
        s.getD (best.bi - 1) ' ' = s.getD (best.bj - 1) ' '
    · rw [if_pos hc]
      have h3 := ih ⟨best.bi - 1, best.bj - 1, best.bsize + 1⟩
        (by simp only []; omega) (by simp only []; omega)
        (by simp only []; omega)
      refine ⟨h3.1, h3.2.1, ?_⟩
      rw [h3.2.2]
      simp only []
      omega
    · rw [if_neg hc]
      have hbi : best.bi = lo := by
        by_contra hne
        exact hc ⟨by omega, by omega, by rw [hbd]⟩
      refine ⟨hbi, by omega, by omega⟩

/-- On a self-comparison the forward extension stretches a diagonal
block to the window end. -/
theorem extendFwd_diag {s : Str} {hi : Nat} :
    ∀ (fuel : Nat) (best : Best), best.bi = best.bj →
      best.bi + best.bsize ≤ hi → hi - (best.bi + best.bsize) ≤ fuel →
      (extendFwd s s hi hi fuel best).bi = best.bi ∧
      (extendFwd s s hi hi fuel best).bj = best.bj ∧
      (extendFwd s s hi hi fuel best).bsize = hi - best.bi := by
  intro fuel
  induction fuel with
  | zero =>
    intro best hbd hle hfe
    rw [extendFwd]
    refine ⟨rfl, rfl, by omega⟩
  | succ fuel ih =>
    intro best hbd hle hfe
    rw [extendFwd]
    by_cases hc : best.bi + best.bsize < hi ∧ best.bj + best.bsize < hi ∧
        s.getD (best.bi + best.bsize) ' ' = s.getD (best.bj + best.bsize) ' '
    · rw [if_pos hc]
      have h3 := ih ⟨best.bi, best.bj, best.bsize + 1⟩
        (by simp only []; omega) (by simp only []; omega)
        (by simp only []; omega)
      exact ⟨h3.1, h3.2.1, h3.2.2⟩
    · rw [if_neg hc]
      have hbs : best.bi + best.bsize = hi := by
        by_contra hne
        exact hc ⟨by omega, by omega, by rw [hbd]⟩
      refine ⟨rfl, rfl, by omega⟩

/-- On a self-comparison `find_longest_match` returns the whole window. -/
theorem flm_diag {s : Str} {lo hi : Nat} (h1 : lo ≤ hi)
    (h2 : hi ≤ s.length) :
    (find_longest_match s s (b2jIdx s) lo hi lo hi).bi = lo ∧
    (find_longest_match s s (b2jIdx s) lo hi lo hi).bj = lo ∧
    (find_longest_match s s (b2jIdx s) lo hi lo hi).bsize = hi - lo := by
  rw [find_longest_match]
  have hd := dpRows_diag h2 (hi - lo) lo (fun _ => 0) ⟨lo, lo, 0⟩
    (show lo + (hi - lo) = hi by omega) (le_refl lo)
    (fun j hj => absurd rfl hj)
    (fun h => absurd h (lt_irrefl lo)) rfl
    ⟨le_refl lo, by show lo + 0 ≤ hi; omega, le_refl lo,
      by show lo + 0 ≤ hi; omega⟩
    (fun q hq1 hq2 => absurd (Nat.lt_of_le_of_lt hq1 hq2) (lt_irrefl lo))
  set d := dpRows s (b2jIdx s) lo hi (hi - lo) lo (fun _ => 0) ⟨lo, lo, 0⟩
    with hdd
  obtain ⟨hded, hb1, hb2, hb3, hb4⟩ := hd
  have hbk := @extendBack_diag s lo d.bi d hded hb1 (by omega)
  set d2 := extendBack s s lo lo d.bi d with hd2
  obtain ⟨hk1, hk2, hk3⟩ := hbk
  have hfw := @extendFwd_diag s hi (hi - (d2.bi + d2.bsize)) d2
    (by omega) (by omega) (le_refl _)
  obtain ⟨hf1, hf2, hf3⟩ := hfw
  refine ⟨?_, ?_, ?_⟩
  · rw [hf1, hk1]
  · rw [hf2, hk2]
  · rw [hf3, hk1]

/-- On a self-comparison the recursive block collection covers the whole
window in one step. -/
theorem matchTotal_diag {s : Str} {lo hi : Nat} (h1 : lo ≤ hi)
    (h2 : hi ≤ s.length) :
    ∀ fuel, 1 ≤ fuel →
      matchTotal s s (b2jIdx s) fuel lo hi lo hi = hi - lo := by
  intro fuel hf
  obtain ⟨g, rfl⟩ : ∃ g, fuel = g + 1 := ⟨fuel - 1, by omega⟩
  rw [matchTotal]
  obtain ⟨hf1, hf2, hf3⟩ := flm_diag h1 h2
  set m := find_longest_match s s (b2jIdx s) lo hi lo hi with hm
  by_cases hz : m.bsize = 0
  · rw [if_pos hz]
    omega
  · rw [if_neg hz]
    rw [if_neg (by omega), if_neg (by omega)]
    omega

/-- Rows whose character has an empty index leave the best block
untouched. -/
theorem dpRows_keep {a : Str} {bj : Char → List Nat} {blo bhi : Nat} :
    ∀ (fuel i : Nat) (old : Nat → Nat) (best : Best),
      (∀ t, t < fuel → bj (a.getD (i + t) ' ') = []) →
      dpRows a bj blo bhi fuel i old best = best := by
  intro fuel
  induction fuel with
  | zero =>
    intro i old best h
    rw [dpRows]
  | succ fuel ih =>
    intro i old best h
    rw [dpRows]
    have h0 := h 0 (by omega)
    rw [Nat.add_zero] at h0
    rw [h0, innerLoop]
    refine ih (i + 1) _ _ ?_
    intro t ht
    have h1 := h (t + 1) (by omega)
    have e : i + (t + 1) = i + 1 + t := by omega
    rw [e] at h1
    exact h1

/-- With no character in common the matcher finds no block at all. -/
theorem flm_zero {a b : Str} (hdisj : ∀ c, c ∈ a → c ∉ b) :
    (find_longest_match a b (b2jIdx b) 0 a.length 0 b.length).bsize = 0 := by
  rw [find_longest_match]
  have hrows : ∀ t, t < a.length - 0 →
      b2jIdx b (a.getD (0 + t) ' ') = [] := by
    intro t ht
    rw [Nat.zero_add]
    refine b2jIdx_eq_nil_of_not_mem ?_
    refine hdisj _ ?_
    have he : a.getD t ' ' = a.get ⟨t, by omega⟩ := by
      rw [List.getD_eq_getElem a ' ' (by omega)]
      rfl
    rw [he]
    exact List.get_mem a t (by omega)
  rw [dpRows_keep (a.length - 0) 0 (fun _ => 0) ⟨0, 0, 0⟩ hrows]
  simp only []
  rw [extendBack]
  simp only []
  cases hA : a.length with
  | zero =>
    rw [extendFwd]
  | succ n =>
    rw [show n + 1 - (0 + 0) = n + 1 from by omega, extendFwd]
    split_ifs with hcon
    swap
    · rfl
    exfalso
    obtain ⟨hc1, hc2, hc3⟩ := hcon
    simp only [] at hc1 hc2 hc3
    have hamem : a.getD 0 ' ' ∈ a := by
      have he : a.getD 0 ' ' = a.get ⟨0, by omega⟩ := by
        rw [List.getD_eq_getElem a ' ' (by omega)]
        rfl
      rw [he]
      exact List.get_mem a 0 (by omega)
    have hbmem : b.getD 0 ' ' ∈ b := by
      have he : b.getD 0 ' ' = b.get ⟨0, by omega⟩ := by
        rw [List.getD_eq_getElem b ' ' (by omega)]
        rfl
      rw [he]
      exact List.get_mem b 0 (by omega)
    rw [hc3] at hamem
    exact hdisj _ hamem hbmem

/-- With no character in common the total matched size is zero. -/
theorem matchTotal_zero {a b : Str} (hdisj : ∀ c, c ∈ a → c ∉ b) :
    ∀ fuel, matchTotal a b (b2jIdx b) fuel 0 a.length 0 b.length = 0 := by
  intro fuel
  cases fuel with
  | zero => rw [matchTotal]
  | succ f =>
    rw [matchTotal]
    rw [if_pos (flm_zero hdisj)]

/-- `similarity_score` is not symmetric: difflib ratios depend on the
argument order, since the longest-match tie-break prefers blocks that
start earlier in the first argument.  For "baab" versus "abab" the score
is 3/4 one way and 1/2 the other. -/
theorem similarity_symmetry_counterexample :
    similarity_score ("baab".toList) ("abab".toList) = 3 / 4 ∧
    similarity_score ("abab".toList) ("baab".toList) = 1 / 2 ∧
    similarity_score ("baab".toList) ("abab".toList) ≠
      similarity_score ("abab".toList) ("baab".toList) := by
  have hl1 : pyLower ("baab".toList) = "baab".toList := by decide
  have hl2 : pyLower ("abab".toList) = "abab".toList := by decide
  have hm1 : matchTotal ("baab".toList) ("abab".toList)
      (b2jIdx ("abab".toList)) (4 + 1) 0 4 0 4 = 3 := by decide
  have hm2 : matchTotal ("abab".toList) ("baab".toList)
      (b2jIdx ("baab".toList)) (4 + 1) 0 4 0 4 = 2 := by decide
  have e1 : ("baab".toList).length = 4 := by decide
  have e2 : ("abab".toList).length = 4 := by decide
  have h1 : similarity_score ("baab".toList) ("abab".toList) = 3 / 4 := by
    simp only [similarity_score]
    rw [hl1, hl2]
    simp only [ratioScore]
    rw [e1, e2, if_neg (by decide), hm1]
    norm_num
  have h2 : similarity_score ("abab".toList) ("baab".toList) = 1 / 2 := by
    simp only [similarity_score]
    rw [hl1, hl2]
    simp only [ratioScore]
    rw [e1, e2, if_neg (by decide), hm2]
    norm_num
  refine ⟨h1, h2, ?_⟩
  rw [h1, h2]
  norm_num

/-- **C6** (amended).  `ArtistFolderReconciler.similarity_score` always
lies in `[0, 1]`; it equals `1` exactly when the lowercased strings are
character-identical; and it equals `0` whenever the lowercased strings
share no character at all (and are not both empty).  The symmetry part
of the original claim is false (see the counterexample): the score is a
function of the ordered pair of arguments. -/
theorem similarity_score_contract (x y : Str) :
    0 ≤ similarity_score x y ∧ similarity_score x y ≤ 1 ∧
    (similarity_score x y = 1 ↔ pyLower x = pyLower y) ∧
    ((∀ c, c ∈ pyLower x → c ∉ pyLower y) →
      (pyLower x).length + (pyLower y).length ≠ 0 →
      similarity_score x y = 0) := by
  simp only [similarity_score]
  set a := pyLower x with hadef
  set b := pyLower y with hbdef
  have hbj : ∀ c j, j ∈ b2jIdx b c → b.getD j ' ' = c :=
    fun c j hj => (mem_b2jIdx hj).2
  by_cases hz : a.length + b.length = 0
  · simp only [ratioScore]
    rw [if_pos hz]
    have ha0 : a = [] := List.eq_nil_of_length_eq_zero (by omega)
    have hb0 : b = [] := List.eq_nil_of_length_eq_zero (by omega)
    refine ⟨by norm_num, by norm_num, ?_, ?_⟩
    · exact ⟨fun h => by rw [ha0, hb0], fun h => rfl⟩
    · intro hdisj hne
      exact absurd hz hne
  · simp only [ratioScore]
    rw [if_neg hz]
    have hM := @matchTotal_le a b (b2jIdx b) hbj (a.length + 1) 0 a.length
      0 b.length (by omega) (by omega)
    simp only [Nat.sub_zero] at hM
    set M := matchTotal a b (b2jIdx b) (a.length + 1) 0 a.length 0 b.length
      with hMdef
    have hdenN : 0 < a.length + b.length := Nat.pos_of_ne_zero hz
    have hden : (0:ℚ) < (a.length : ℚ) + (b.length : ℚ) := by
      exact_mod_cast hdenN
    refine ⟨div_nonneg (by positivity) (le_of_lt hden), ?_, ?_, ?_⟩
    · refine (div_le_one hden).mpr ?_
      exact_mod_cast (show 2 * M ≤ a.length + b.length by omega)
    · constructor
      · intro h
        rw [div_eq_one_iff_eq (ne_of_gt hden)] at h
        have hNat : 2 * M = a.length + b.length := by exact_mod_cast h
        have hfull := @matchTotal_full a b (b2jIdx b) hbj (a.length + 1) 0
          a.length 0 b.length (by omega) (by omega) (by omega) (by omega)
        have hlen : a.length = b.length := by omega
        refine List.ext_getElem hlen ?_
        intro i hi1 hi2
        have h5 := hfull i (by omega)
        simp only [Nat.zero_add] at h5
        rw [List.getD_eq_getElem a ' ' hi1, List.getD_eq_getElem b ' ' hi2]
          at h5
        exact h5
      · intro h
        rw [hMdef, h]
        have hbpos : 0 < b.length := by
          rw [h] at hz
          omega
        have hd := matchTotal_diag (Nat.zero_le b.length) (le_refl b.length)
          (b.length + 1) (by omega)
        rw [Nat.sub_zero] at hd
        rw [hd]
        have hne2 : ((b.length : ℚ) + (b.length : ℚ)) ≠ 0 := by
          have hp : (0:ℚ) < (b.length : ℚ) + (b.length : ℚ) := by
            exact_mod_cast (show 0 < b.length + b.length by omega)
          exact ne_of_gt hp
        rw [div_eq_one_iff_eq hne2]
        ring
    · intro hdisj hne
      have hM0 : M = 0 := by
        rw [hMdef]
        exact matchTotal_zero hdisj (a.length + 1)
      rw [hM0]
      norm_num

/-- The amended contract evaluated at concrete inputs: identical strings
score `1` and disjoint strings score `0`. -/
theorem similarity_score_contract_witness :
    similarity_score ("ab".toList) ("ab".toList) = 1 ∧
    similarity_score ("ab".toList) ("xy".toList) = 0 := by
  have h1 := similarity_score_contract ("ab".toList) ("ab".toList)
  have h2 := similarity_score_contract ("ab".toList) ("xy".toList)
  exact ⟨h1.2.2.1.mpr rfl, h2.2.2.2 (by decide) (by decide)⟩

end RussFM
